import Mathlib

/-!
Verification of the underground journey planner (Task3.py): graph loading
from tabular rows, Dijkstra shortest-path search with a lazy-deletion
priority queue, and path reconstruction from predecessor links.

Python dictionaries are modelled as insertion-ordered association lists
(`dlookup` finds the first binding, `dset` updates the first binding in
place or appends a new one, which matches dict assignment semantics).
Machine integers are modelled as `Int` (Python ints are unbounded) and
`float('inf')` together with finite distances as `WithTop Int`.
-/

namespace Task3

/-- Lookup in a Python-style dict modelled as an association list:
returns the value of the first binding of the key, if any. -/
def dlookup {α : Type} : List (String × α) → String → Option α
  | [], _ => none
  | (k, v) :: rest, key => if k = key then some v else dlookup rest key

/-- Assignment `d[k] = v` on a Python-style dict: replaces the value of the
first binding of `k` in place, or appends a fresh binding (Python dicts
keep the original insertion position on update and append new keys). -/
def dset {α : Type} : List (String × α) → String → α → List (String × α)
  | [], k, v => [(k, v)]
  | (k0, v0) :: rest, k, v =>
      if k0 = k then (k, v) :: rest else (k0, v0) :: dset rest k v

/-- The adjacency structure built by the loader: station name to
(neighbor name to travel time), a dict of dicts. -/
abbrev Graph : Type := List (String × List (String × Int))

/-- Edge lookup `graph[a][b]` (as a total query returning an option). -/
def elookup (g : Graph) (a b : String) : Option Int :=
  (dlookup g a).bind (fun d => dlookup d b)

/-- Value of a run of decimal digits, `none` if some character is not a
digit; accumulator form. -/
def digitsValAux : Nat → List Char → Option Nat
  | acc, [] => some acc
  | acc, c :: rest =>
      if c.isDigit then digitsValAux (acc * 10 + (c.toNat - 48)) rest else none

/-- Value of a nonempty all-digit character list, `none` otherwise. -/
def digitsVal : List Char → Option Nat
  | [] => none
  | cs => digitsValAux 0 cs

/-- Model of Python `int(s)` on an already-stripped string: an optional
sign followed by decimal digits, `none` (a `ValueError`) otherwise.
Underscore digit grouping accepted by CPython is not modelled; no claim
involves it. -/
def pyInt (s : String) : Option Int :=
  match s.data with
  | '+' :: rest => (digitsVal rest).map (fun n => (n : Int))
  | '-' :: rest => (digitsVal rest).map (fun n => -(n : Int))
  | cs => (digitsVal cs).map (fun n => (n : Int))

/-- The two dict assignments performed for an accepted row:
`graph[a][b] = t` then `graph[b][a] = t`, with `defaultdict(dict)`
semantics (a missing outer key denotes the empty inner dict). -/
def addEdge (g : Graph) (a b : String) (t : Int) : Graph :=
  let g1 : Graph := dset g a (dset ((dlookup g a).getD []) b t)
  dset g1 b (dset ((dlookup g1 b).getD []) a t)

/-- Python `str.isspace`-style test for the characters `str.strip`
removes (ASCII whitespace; other unicode space characters never occur in
the claims' inputs and are not modelled). -/
def isSpaceChar (c : Char) : Bool :=
  c = ' ' || c = '\t' || c = '\n' || c = '\r' || c = '\x0b' || c = '\x0c'

/-- Model of Python `str.strip()`: drop leading and trailing whitespace. -/
def pyStrip (s : String) : String :=
  ⟨((s.data.dropWhile isSpaceChar).reverse.dropWhile isSpaceChar).reverse⟩

/-- One iteration of the row loop in `load_underground_graph`: skip rows
with fewer than 4 fields, strip fields 1..3, require all three nonempty
(Python truthiness), parse the time with `int` (a `ValueError` skips the
row), and insert both edge directions. The source performs no sign check
on the parsed time. -/
def processRow (g : Graph) (row : List String) : Graph :=
  if row.length < 4 then g
  else if pyStrip (row.getD 1 "") ≠ "" ∧ pyStrip (row.getD 2 "") ≠ "" ∧
      pyStrip (row.getD 3 "") ≠ "" then
    match pyInt (pyStrip (row.getD 3 "")) with
    | some t => addEdge g (pyStrip (row.getD 1 "")) (pyStrip (row.getD 2 "")) t
    | none => g
  else g

/-- The row-processing core of `load_underground_graph`: skip the header
row (an empty file returns the empty graph at the `StopIteration`
branch, which coincides with folding over no rows), then fold the row
loop over the data rows starting from the empty `defaultdict(dict)`. -/
def buildGraph (rows : List (List String)) : Graph :=
  match rows with
  | [] => []
  | _ :: data => data.foldl processRow []

/-- Outcome of opening and decoding the input file, abstracting the file
system: the file may be absent, or present with the rows obtained by csv
parsing under each encoding (`utf8 = none` models a `UnicodeDecodeError`
for the utf-8 attempt; real latin-1 decoding never fails, but the field
is optional because the source keeps a re-raise branch for it). -/
structure FileInput where
  present : Bool
  utf8 : Option (List (List String))
  latin1 : Option (List (List String))

/-- Result of `load_underground_graph`: a graph, or an uncaught
`UnicodeDecodeError` (the only exception the function re-raises). -/
inductive LoadRes : Type
  | graph (g : Graph)
  | unicodeError
  deriving DecidableEq

/-- Top level of `load_underground_graph`: a missing file is caught
(`except FileNotFoundError` prints a message and returns the empty
`defaultdict(dict)`); otherwise the first encoding that decodes is used,
and only a decode failure of the last encoding is re-raised. -/
def load_underground_graph (f : FileInput) : LoadRes :=
  if f.present then
    match f.utf8 with
    | some rows => .graph (buildGraph rows)
    | none =>
        match f.latin1 with
        | some rows => .graph (buildGraph rows)
        | none => .unicodeError
  else .graph []

/-! ### Association-list lemmas -/

theorem dlookup_dset_self {α : Type} (d : List (String × α)) (k : String) (v : α) :
    dlookup (dset d k v) k = some v := by
  induction d with
  | nil => simp [dset, dlookup]
  | cons p rest ih =>
      obtain ⟨k0, v0⟩ := p
      by_cases h : k0 = k
      · simp [dset, h, dlookup]
      · simp [dset, h, dlookup, ih]

theorem dlookup_dset_ne {α : Type} (d : List (String × α)) (k x : String) (v : α)
    (hx : x ≠ k) : dlookup (dset d k v) x = dlookup d x := by
  induction d with
  | nil => simp [dset, dlookup, Ne.symm hx]
  | cons p rest ih =>
      obtain ⟨k0, v0⟩ := p
      by_cases h : k0 = k
      · subst h
        simp [dset, dlookup, Ne.symm hx]
      · by_cases h2 : k0 = x <;> simp [dset, h, dlookup, h2, ih, hx]

theorem isSome_dlookup_dset {α : Type} (d : List (String × α)) (k x : String) (v : α) :
    (dlookup (dset d k v) x).isSome ↔ x = k ∨ (dlookup d x).isSome := by
  by_cases h : x = k
  · subst h; simp [dlookup_dset_self]
  · simp [dlookup_dset_ne d k x v h, h]

theorem dlookup_mem {α : Type} {d : List (String × α)} {k : String} {v : α}
    (h : dlookup d k = some v) : (k, v) ∈ d := by
  induction d with
  | nil => simp [dlookup] at h
  | cons p rest ih =>
      obtain ⟨k0, v0⟩ := p
      by_cases hk : k0 = k
      · subst hk
        simp [dlookup] at h
        simp [h]
      · simp [dlookup, hk] at h
        exact List.mem_cons_of_mem _ (ih h)

theorem dlookup_eq_none_iff {α : Type} (d : List (String × α)) (k : String) :
    dlookup d k = none ↔ k ∉ d.map Prod.fst := by
  induction d with
  | nil => simp [dlookup]
  | cons p rest ih =>
      obtain ⟨k0, v0⟩ := p
      by_cases hk : k0 = k
      · subst hk; simp [dlookup]
      · simp [dlookup, hk, ih, Ne.symm hk]

theorem mem_dlookup_of_nodup {α : Type} {d : List (String × α)} {k : String} {v : α}
    (hnd : (d.map Prod.fst).Nodup) (h : (k, v) ∈ d) : dlookup d k = some v := by
  induction d with
  | nil => simp at h
  | cons p rest ih =>
      obtain ⟨k0, v0⟩ := p
      simp only [List.map_cons, List.nodup_cons] at hnd
      rcases List.mem_cons.mp h with h1 | h2
      · injection h1 with hk hv
        subst hk
        subst hv
        simp [dlookup]
      · have hk0 : k0 ≠ k := by
          intro hk
          subst hk
          exact hnd.1 (List.mem_map.mpr ⟨(k0, v), h2, rfl⟩)
        simp [dlookup, hk0, ih hnd.2 h2]

theorem mem_dset {α : Type} {d : List (String × α)} {k : String} {v : α} {p : String × α}
    (h : p ∈ dset d k v) : p = (k, v) ∨ p ∈ d := by
  induction d with
  | nil => simp [dset] at h; simp [h]
  | cons q rest ih =>
      obtain ⟨k0, v0⟩ := q
      by_cases hk : k0 = k
      · simp [dset, hk] at h
        rcases h with h | h
        · exact .inl (by simp [h])
        · exact .inr (List.mem_cons_of_mem _ h)
      · simp [dset, hk] at h
        rcases h with h | h
        · exact .inr (by simp [h])
        · rcases ih h with h2 | h2
          · exact .inl h2
          · exact .inr (List.mem_cons_of_mem _ h2)

theorem dset_map_fst {α : Type} (d : List (String × α)) (k : String) (v : α) :
    (dset d k v).map Prod.fst =
      if (dlookup d k).isSome then d.map Prod.fst else d.map Prod.fst ++ [k] := by
  induction d with
  | nil => simp [dset, dlookup]
  | cons p rest ih =>
      obtain ⟨k0, v0⟩ := p
      by_cases hk : k0 = k
      · subst hk; simp [dset, dlookup]
      · simp [dset, hk, dlookup, ih]
        by_cases h2 : (dlookup rest k).isSome <;> simp [h2]

theorem dset_keys_nodup {α : Type} {d : List (String × α)} (hnd : (d.map Prod.fst).Nodup)
    (k : String) (v : α) : ((dset d k v).map Prod.fst).Nodup := by
  rw [dset_map_fst]
  by_cases h : (dlookup d k).isSome
  · simpa [h] using hnd
  · have hk : k ∉ d.map Prod.fst := by
      rw [← dlookup_eq_none_iff]
      exact Option.not_isSome_iff_eq_none.mp h
    simp [h, List.nodup_append, hnd, hk]

theorem dlookup_getD_dlookup (g : Graph) (p q : String) :
    dlookup ((dlookup g p).getD []) q = elookup g p q := by
  unfold elookup
  cases dlookup g p <;> simp [dlookup]

/-- Effect of the two assignments of an accepted record `(a, b, t)` on an
arbitrary edge query: the two inserted directions read `t` and every
other edge query is unchanged. -/
theorem elookup_addEdge (g : Graph) (a b : String) (t : Int) (x y : String) :
    elookup (addEdge g a b t) x y =
      if x = a ∧ y = b then some t
      else if x = b ∧ y = a then some t
      else elookup g x y := by
  show (dlookup (addEdge g a b t) x).bind (fun d => dlookup d y) = _
  unfold addEdge
  by_cases hxb : x = b
  · rw [hxb, dlookup_dset_self, Option.some_bind]
    by_cases hya : y = a
    · rw [hya, dlookup_dset_self]
      by_cases hab : a = b
      · simp [hxb, hya, hab]
      · simp [hxb, hya, hab, Ne.symm hab]
    · rw [dlookup_dset_ne _ _ _ _ hya]
      by_cases hab : b = a
      · rw [hab, dlookup_dset_self]
        simp only [Option.getD_some]
        rw [dlookup_dset_ne _ _ _ _ hya, dlookup_getD_dlookup]
        simp [hya, elookup]
      · rw [dlookup_dset_ne _ _ _ _ hab, dlookup_getD_dlookup]
        simp [hxb, hya, hab, Ne.symm hab, elookup]
  · have houter :
        dlookup (dset (dset g a (dset ((dlookup g a).getD []) b t)) b
          (dset ((dlookup (dset g a (dset ((dlookup g a).getD []) b t)) b).getD []) a t)) x
        = dlookup (dset g a (dset ((dlookup g a).getD []) b t)) x :=
      dlookup_dset_ne _ _ _ _ hxb
    rw [houter]
    by_cases hxa : x = a
    · rw [hxa, dlookup_dset_self, Option.some_bind]
      by_cases hyb : y = b
      · rw [hyb, dlookup_dset_self]
        simp [hxa, hyb]
      · rw [dlookup_dset_ne _ _ _ _ hyb, dlookup_getD_dlookup]
        have hab : ¬a = b := by
          intro h
          exact hxb (hxa.trans h)
        simp [hab, hyb, elookup]
    · rw [dlookup_dset_ne _ _ _ _ hxa]
      simp [hxa, hxb, elookup]

/-! ### Graph invariants established by the loader -/

/-- Symmetry of the adjacency mapping (the spec's data-model invariant
for undirected connections). -/
abbrev Symm (g : Graph) : Prop :=
  ∀ x y c, elookup g x y = some c → elookup g y x = some c

/-- Closure under adjacency: every station that appears as a neighbor is
itself a top-level key of the graph. -/
abbrev Closed (g : Graph) : Prop :=
  ∀ x y c, elookup g x y = some c → (dlookup g y).isSome

/-- All stored edge weights are strictly positive (the spec's travel-time
invariant; the code does not enforce it, see the C3 analysis). -/
abbrev PosW (g : Graph) : Prop :=
  ∀ p ∈ g, ∀ q ∈ p.2, 0 < q.2

/-- Every inner adjacency dict binds each neighbor key once (automatic
for structures built out of `dset`). -/
abbrev InnerNodup (g : Graph) : Prop :=
  ∀ p ∈ g, (p.2.map Prod.fst).Nodup

theorem posW_elookup {g : Graph} (hp : PosW g) {u v : String} {t : Int}
    (h : elookup g u v = some t) : 0 < t := by
  unfold elookup at h
  cases hu : dlookup g u with
  | none => rw [hu] at h; simp at h
  | some d =>
      rw [hu] at h
      simp only [Option.some_bind] at h
      exact hp (u, d) (dlookup_mem hu) (v, t) (dlookup_mem h)

theorem isSome_dlookup_addEdge (g : Graph) (a b : String) (t : Int) (z : String) :
    (dlookup (addEdge g a b t) z).isSome ↔ z = a ∨ z = b ∨ (dlookup g z).isSome := by
  unfold addEdge
  rw [isSome_dlookup_dset, isSome_dlookup_dset]
  tauto

theorem addEdge_symm {g : Graph} (hs : Symm g) (a b : String) (t : Int) :
    Symm (addEdge g a b t) := by
  intro x y c h
  rw [elookup_addEdge] at h
  rw [elookup_addEdge]
  by_cases h1 : x = a ∧ y = b
  · rw [if_pos h1] at h
    by_cases h2 : y = a ∧ x = b
    · rwa [if_pos h2]
    · rw [if_neg h2, if_pos ⟨h1.2, h1.1⟩]
      exact h
  · rw [if_neg h1] at h
    by_cases h2 : x = b ∧ y = a
    · rw [if_pos h2] at h
      by_cases h3 : y = a ∧ x = b
      · rwa [if_pos h3]
      · exact absurd ⟨h2.2, h2.1⟩ h3
    · rw [if_neg h2] at h
      have hyx1 : ¬(y = a ∧ x = b) := fun hc => h2 ⟨hc.2, hc.1⟩
      have hyx2 : ¬(y = b ∧ x = a) := fun hc => h1 ⟨hc.2, hc.1⟩
      rw [if_neg hyx1, if_neg hyx2]
      exact hs x y c h

theorem addEdge_closed {g : Graph} (hc : Closed g) (a b : String) (t : Int) :
    Closed (addEdge g a b t) := by
  intro x y c h
  rw [elookup_addEdge] at h
  rw [isSome_dlookup_addEdge]
  by_cases h1 : x = a ∧ y = b
  · exact .inr (.inl h1.2)
  · rw [if_neg h1] at h
    by_cases h2 : x = b ∧ y = a
    · exact .inl h2.2
    · rw [if_neg h2] at h
      exact .inr (.inr (hc x y c h))

theorem innerNodup_getD {g : Graph} (hn : InnerNodup g) (a : String) :
    (((dlookup g a).getD []).map Prod.fst).Nodup := by
  cases hh : dlookup g a with
  | none => simp
  | some d => exact hn (a, d) (dlookup_mem hh)

theorem addEdge_innerNodup {g : Graph} (hn : InnerNodup g) (a b : String) (t : Int) :
    InnerNodup (addEdge g a b t) := by
  have hg1 : InnerNodup (dset g a (dset ((dlookup g a).getD []) b t)) := by
    intro p hp
    rcases mem_dset hp with h1 | h1
    · rw [h1]
      exact dset_keys_nodup (innerNodup_getD hn a) b t
    · exact hn p h1
  intro p hp
  unfold addEdge at hp
  rcases mem_dset hp with h1 | h1
  · rw [h1]
    exact dset_keys_nodup (innerNodup_getD hg1 b) a t
  · exact hg1 p h1

theorem processRow_cases (g : Graph) (row : List String) :
    processRow g row = g ∨ ∃ a b t, processRow g row = addEdge g a b t := by
  unfold processRow
  by_cases h : row.length < 4
  · simp [h]
  · rw [if_neg h]
    by_cases h2 : pyStrip (row.getD 1 "") ≠ "" ∧ pyStrip (row.getD 2 "") ≠ "" ∧
        pyStrip (row.getD 3 "") ≠ ""
    · rw [if_pos h2]
      cases hp : pyInt (pyStrip (row.getD 3 "")) with
      | none => exact .inl rfl
      | some t => exact .inr ⟨_, _, t, rfl⟩
    · rw [if_neg h2]
      exact .inl rfl

theorem foldl_processRow_preserves (P : Graph → Prop)
    (hadd : ∀ g a b t, P g → P (addEdge g a b t)) :
    ∀ (rows : List (List String)) (g : Graph), P g → P (rows.foldl processRow g) := by
  intro rows
  induction rows with
  | nil => intro g hg; simpa using hg
  | cons r rest ih =>
      intro g hg
      rw [List.foldl_cons]
      apply ih
      rcases processRow_cases g r with h | ⟨a, b, t, h⟩
      · rwa [h]
      · rw [h]
        exact hadd g a b t hg

theorem buildGraph_symm (rows : List (List String)) : Symm (buildGraph rows) := by
  cases rows with
  | nil =>
      intro x y c h
      simp [elookup, dlookup] at h
  | cons hdr data =>
      show Symm (data.foldl processRow [])
      apply foldl_processRow_preserves Symm (fun g a b t hg => addEdge_symm hg a b t)
      intro x y c h
      simp [elookup, dlookup] at h

theorem buildGraph_closed (rows : List (List String)) : Closed (buildGraph rows) := by
  cases rows with
  | nil =>
      intro x y c h
      simp [elookup, dlookup] at h
  | cons hdr data =>
      show Closed (data.foldl processRow [])
      apply foldl_processRow_preserves Closed (fun g a b t hg => addEdge_closed hg a b t)
      intro x y c h
      simp [elookup, dlookup] at h

theorem buildGraph_innerNodup (rows : List (List String)) :
    InnerNodup (buildGraph rows) := by
  cases rows with
  | nil => intro p hp; simp [buildGraph] at hp
  | cons hdr data =>
      show InnerNodup (data.foldl processRow [])
      apply foldl_processRow_preserves InnerNodup (fun g a b t hg => addEdge_innerNodup hg a b t)
      intro p hp
      simp at hp

theorem symm_closed {g : Graph} (hs : Symm g) : Closed g := by
  intro x y c h
  have h2 := hs x y c h
  unfold elookup at h2
  cases hh : dlookup g y with
  | none => rw [hh] at h2; simp at h2
  | some d => simp [hh]

/-! ### Row acceptance, characterised -/

/-- Acceptance function of the row loop, factored out of `processRow`: the
connection a row contributes, if any. The acceptance condition is: at
least 4 fields, the three used fields strip to nonempty strings, and the
time field parses as an integer of any sign — the code has no
strict-positivity filter. -/
def parseRow (row : List String) : Option (String × String × Int) :=
  if row.length < 4 then none
  else if pyStrip (row.getD 1 "") ≠ "" ∧ pyStrip (row.getD 2 "") ≠ "" ∧
      pyStrip (row.getD 3 "") ≠ "" then
    (pyInt (pyStrip (row.getD 3 ""))).map
      (fun t => (pyStrip (row.getD 1 ""), pyStrip (row.getD 2 ""), t))
  else none

theorem processRow_eq_parseRow (g : Graph) (row : List String) :
    processRow g row = match parseRow row with
      | some (a, b, t) => addEdge g a b t
      | none => g := by
  unfold processRow parseRow
  by_cases h : row.length < 4
  · simp [h]
  · rw [if_neg h, if_neg h]
    by_cases h2 : pyStrip (row.getD 1 "") ≠ "" ∧ pyStrip (row.getD 2 "") ≠ "" ∧
        pyStrip (row.getD 3 "") ≠ ""
    · rw [if_pos h2, if_pos h2]
      cases hp : pyInt (pyStrip (row.getD 3 "")) <;> simp
    · rw [if_neg h2, if_neg h2]

/-! ### Last-write-wins characterisation of the built graph -/

/-- Whether an accepted triple names the unordered station pair `{a, b}`,
and with which cost. -/
def pairCost (a b : String) : Option (String × String × Int) → Option Int
  | some (x, y, t) => if (x = a ∧ y = b) ∨ (x = b ∧ y = a) then some t else none
  | none => none

/-- Cost of the last accepted record in `data` naming the station pair
`{a, b}` in either order; `none` if no record does. This is the spec's
last-write-wins description of the loaded graph. -/
def lastAccepted : List (List String) → String → String → Option Int
  | [], _, _ => none
  | row :: rest, a, b =>
      match lastAccepted rest a b with
      | some t => some t
      | none => pairCost a b (parseRow row)

theorem lastAccepted_cons (row : List String) (rest : List (List String)) (a b : String) :
    lastAccepted (row :: rest) a b =
      match lastAccepted rest a b with
      | some t => some t
      | none => pairCost a b (parseRow row) := rfl

theorem elookup_processRow (g : Graph) (row : List String) (a b : String) :
    elookup (processRow g row) a b =
      match pairCost a b (parseRow row) with
      | some t => some t
      | none => elookup g a b := by
  rw [processRow_eq_parseRow]
  cases hp : parseRow row with
  | none => simp [pairCost]
  | some p =>
      obtain ⟨x, y, t⟩ := p
      by_cases hc : (x = a ∧ y = b) ∨ (x = b ∧ y = a)
      · have hpc : pairCost a b (some (x, y, t)) = some t := by
          simp only [pairCost]
          rw [if_pos hc]
        rw [hpc]
        show elookup (addEdge g x y t) a b = some t
        rw [elookup_addEdge]
        by_cases h1 : a = x ∧ b = y
        · rw [if_pos h1]
        · rw [if_neg h1]
          have h2 : a = y ∧ b = x := by
            rcases hc with ⟨hx, hy⟩ | ⟨hx, hy⟩
            · exact absurd ⟨hx.symm, hy.symm⟩ h1
            · exact ⟨hy.symm, hx.symm⟩
          rw [if_pos h2]
      · have hpc : pairCost a b (some (x, y, t)) = none := by
          simp only [pairCost]
          rw [if_neg hc]
        rw [hpc]
        show elookup (addEdge g x y t) a b = elookup g a b
        rw [elookup_addEdge]
        have h1 : ¬(a = x ∧ b = y) := fun hh => hc (.inl ⟨hh.1.symm, hh.2.symm⟩)
        have h2 : ¬(a = y ∧ b = x) := fun hh => hc (.inr ⟨hh.2.symm, hh.1.symm⟩)
        rw [if_neg h1, if_neg h2]

theorem elookup_foldl_processRow (data : List (List String)) :
    ∀ (g : Graph) (a b : String),
      elookup (data.foldl processRow g) a b =
        match lastAccepted data a b with
        | some t => some t
        | none => elookup g a b := by
  induction data with
  | nil => intro g a b; simp [lastAccepted]
  | cons row rest ih =>
      intro g a b
      rw [List.foldl_cons, ih, lastAccepted_cons]
      cases hl : lastAccepted rest a b with
      | some t => rfl
      | none => exact elookup_processRow g row a b

theorem lastAccepted_comm (data : List (List String)) (a b : String) :
    lastAccepted data b a = lastAccepted data a b := by
  induction data with
  | nil => rfl
  | cons row rest ih =>
      rw [lastAccepted_cons, lastAccepted_cons, ih]
      cases lastAccepted rest a b with
      | some t => rfl
      | none =>
          cases parseRow row with
          | none => rfl
          | some p =>
              obtain ⟨x, y, t⟩ := p
              simp only [pairCost]
              by_cases h : (x = a ∧ y = b) ∨ (x = b ∧ y = a)
              · rw [if_pos h, if_pos (Or.symm h)]
              · rw [if_neg h, if_neg (fun hh => h (Or.symm hh))]

/-! ### Claims about the loader -/

/-- C3, counterexample: a data row whose time field is the string "0"
is accepted by the row loop and contributes a connection of weight 0 to
the graph, although the claim states that rows with a zero time field
are silently skipped and add no edge. -/
theorem zero_time_row_adds_edge :
    elookup (buildGraph [["Line", "From", "To", "Time"],
      ["Bakerloo", "StationA", "StationB", "0"]]) "StationA" "StationB" = some 0 := by
  decide

/-- C3 (amended): a row contributes a connection iff it has at least 4
fields, its station and time fields strip to nonempty strings, and the
time field parses as an integer of any sign; only those checks are
applied (rows with a non-numeric or empty time field are silently
skipped), and zero or negative parsed times are accepted like positive
ones. `parseRow` spells out exactly this acceptance condition and the
theorem says the row loop adds precisely the connection it yields. -/
theorem row_contributes_iff_parses (g : Graph) (row : List String) :
    processRow g row = match parseRow row with
      | some (a, b, t) => addEdge g a b t
      | none => g :=
  processRow_eq_parseRow g row

/-- C4: after `load_underground_graph` finishes, the adjacency mapping is
symmetric: station `a` maps to `b` with cost `t` iff `b` maps to `a`
with the same cost `t`. -/
theorem loaded_graph_symmetric (rows : List (List String)) (a b : String) (t : Int) :
    elookup (buildGraph rows) a b = some t ↔ elookup (buildGraph rows) b a = some t :=
  ⟨buildGraph_symm rows a b t, buildGraph_symm rows b a t⟩

/-- C8: for every pair of stations, the loaded graph holds exactly the
cost of the last accepted record naming that pair (in either order), in
both directions; earlier costs are overwritten, never accumulated. -/
theorem loaded_graph_last_write_wins (hdr : List String) (data : List (List String))
    (a b : String) :
    elookup (buildGraph (hdr :: data)) a b = lastAccepted data a b ∧
      elookup (buildGraph (hdr :: data)) b a = lastAccepted data a b := by
  constructor
  · show elookup (data.foldl processRow []) a b = _
    rw [elookup_foldl_processRow]
    cases lastAccepted data a b with
    | some t => rfl
    | none => simp [elookup, dlookup]
  · show elookup (data.foldl processRow []) b a = _
    rw [elookup_foldl_processRow, lastAccepted_comm]
    cases lastAccepted data a b with
    | some t => rfl
    | none => simp [elookup, dlookup]

/-- C9, counterexample: when the input file does not exist, a graph (the
empty one) IS produced and returned to the caller — the
`FileNotFoundError` is caught inside `load_underground_graph`, which
contradicts the claim that the error is surfaced and no graph is
produced. -/
theorem missing_file_produces_a_graph :
    ∃ g, load_underground_graph ⟨false, none, none⟩ = .graph g :=
  ⟨[], rfl⟩

/-- C9 (amended): if the input file does not exist,
`load_underground_graph` catches the `FileNotFoundError`, prints an
error message, and returns an empty graph instead of surfacing an error;
the caller then treats the empty (falsy) graph as a failed load. -/
theorem missing_file_returns_empty_graph (u l : Option (List (List String))) :
    load_underground_graph ⟨false, u, l⟩ = .graph [] :=
  rfl

/-! ### Dijkstra: state, heap model and step function -/

/-- Mutable state of the Dijkstra while loop: the distances dict (finite
int or `inf`), the predecessors dict, and the entries currently in the
heap. Only the multiset of heap entries is observable through heapq, so
a list of entries with a min-extraction models it faithfully. -/
structure DState where
  dist : List (String × WithTop Int)
  preds : List (String × String)
  queue : List (Int × String)
  deriving DecidableEq

/-- The order heapq uses on `(distance, station)` entries: lexicographic
tuple comparison. -/
def pqLeB (x y : Int × String) : Bool :=
  decide (x.1 < y.1) || (decide (x.1 = y.1) && decide (x.2 < y.2 ∨ x.2 = y.2))

def findMinEntry : (Int × String) → List (Int × String) → (Int × String)
  | best, [] => best
  | best, x :: xs => findMinEntry (if pqLeB x best then x else best) xs

def removeFirst : List (Int × String) → (Int × String) → List (Int × String)
  | [], _ => []
  | x :: xs, y => if x = y then xs else x :: removeFirst xs y

/-- Model of `heapq.heappop`: the least `(distance, station)` tuple and
the remaining entries. -/
def popMin : List (Int × String) → Option ((Int × String) × List (Int × String))
  | [] => none
  | x :: xs => some (findMinEntry x xs, removeFirst (x :: xs) (findMinEntry x xs))

/-- One relaxation of the inner for loop: compute
`new_distance = current_distance + weight` and compare against
`distances[neighbor]`; `none` models the `KeyError` raised when the
neighbor is not a key of the distances dict. An improvement updates the
distance, sets the predecessor and pushes a heap entry. -/
def relax (cd : Int) (cur : String) (st : DState) : String × Int → Option DState
  | (nv, nt) =>
      match dlookup st.dist nv with
      | none => none
      | some dn =>
          if ((cd + nt : Int) : WithTop Int) < dn then
            some ⟨dset st.dist nv ((cd + nt : Int) : WithTop Int),
                  dset st.preds nv cur,
                  (cd + nt, nv) :: st.queue⟩
          else some st

def relaxList (cd : Int) (cur : String) : DState → List (String × Int) → Option DState
  | st, [] => some st
  | st, nb :: rest =>
      match relax cd cur st nb with
      | none => none
      | some st2 => relaxList cd cur st2 rest

inductive StepRes : Type
  | done
  | keyErr
  | next (st : DState)
  deriving DecidableEq

/-- One iteration of the while loop: pop the least entry; drop it if
stale (`current_distance > distances[current_station]`); otherwise relax
all neighbors. `graph[current_station]` on the `defaultdict` yields the
empty dict for a missing key (the incidental insertion the defaultdict
performs is invisible to the rest of the run and is not modelled). -/
def dijkstraStep (g : Graph) (st : DState) : StepRes :=
  match popMin st.queue with
  | none => .done
  | some ((cd, cur), rest) =>
      match dlookup st.dist cur with
      | none => .keyErr
      | some dcur =>
          if dcur < ((cd : Int) : WithTop Int) then .next ⟨st.dist, st.preds, rest⟩
          else
            match relaxList cd cur ⟨st.dist, st.preds, rest⟩ ((dlookup g cur).getD []) with
            | none => .keyErr
            | some st2 => .next st2

inductive RunRes : Type
  | out (st : DState)
  | keyErr
  | fuelOut
  deriving DecidableEq

/-- The while loop, with fuel (the source loop is unbounded; every
theorem about a complete run quantifies the fuel existentially). -/
def dijkstraRun (g : Graph) : Nat → DState → RunRes
  | 0, _ => .fuelOut
  | n + 1, st =>
      match dijkstraStep g st with
      | .done => .out st
      | .keyErr => .keyErr
      | .next st2 => dijkstraRun g n st2

/-- The initial state: `distances = {station: inf for station in graph}`
then `distances[start] = 0`; empty predecessors; queue `[(0, start)]`. -/
def dijkstraInit (g : Graph) (s : String) : DState :=
  ⟨dset (g.map (fun p => (p.1, (⊤ : WithTop Int)))) s ((0 : Int) : WithTop Int),
   [], [(0, s)]⟩

inductive DijkRes : Type
  | ok (dist : List (String × WithTop Int)) (preds : List (String × String))
  | valueError
  | keyError
  | fuelOut
  deriving DecidableEq

/-- Model of `dijkstra_shortest_path`: raise `ValueError` when the start
station is not a key of the graph, else run the loop and return the
distance and predecessor dicts. -/
def dijkstra_shortest_path (g : Graph) (s : String) (fuel : Nat) : DijkRes :=
  if (dlookup g s).isSome then
    match dijkstraRun g fuel (dijkstraInit g s) with
    | .out st => .ok st.dist st.preds
    | .keyErr => .keyError
    | .fuelOut => .fuelOut
  else .valueError

/-- The backward reconstruction loop of `find_shortest_path`: the outer
`none` is fuel exhaustion (the Python while loop is unbounded), the
inner `none` is the broken-chain guard (`current not in predecessors`)
which makes the caller return `([], 0)`. -/
def walkBack (preds : List (String × String)) (s : String) :
    Nat → String → List String → Option (Option (List String))
  | 0, cur, acc => if cur = s then some (some (s :: acc)) else none
  | n + 1, cur, acc =>
      if cur = s then some (some (s :: acc))
      else
        match dlookup preds cur with
        | none => some none
        | some u => walkBack preds s n u (cur :: acc)

inductive FindRes : Type
  | res (path : List String) (minutes : Int)
  | exn
  | fuelOut
  deriving DecidableEq

/-- Model of `find_shortest_path`: membership pre-checks returning
`([], 0)`, the Dijkstra run, the `inf` check on
`distances.get(end_station, inf)`, and the reconstruction walk.
`FindRes.exn` marks an exception propagating to the caller. -/
def find_shortest_path (g : Graph) (s e : String) (fuel : Nat) : FindRes :=
  if (dlookup g s).isSome ∧ (dlookup g e).isSome then
    match dijkstra_shortest_path g s fuel with
    | .ok dist preds =>
        if (dlookup dist e).getD ⊤ = ⊤ then .res [] 0
        else
          match walkBack preds s fuel e [] with
          | none => .fuelOut
          | some none => .res [] 0
          | some (some p) => .res p (((dlookup dist e).getD ⊤).untop' 0)
    | .valueError => .exn
    | .keyError => .exn
    | .fuelOut => .fuelOut
  else .res [] 0

/-! ### Walks and minimal distances -/

/-- Walks in the modelled graph from a fixed source, with their total
edge cost. -/
inductive Walk (g : Graph) (s : String) : String → Int → Prop
  | nil : Walk g s s 0
  | cons {v w : String} {c t : Int} : Walk g s v c → elookup g v w = some t →
      Walk g s w (c + t)

/-- The value `d` is the minimum total edge weight over all walks from
`s` to `v`, with `⊤` meaning no walk (hence no path) exists. With
strictly positive weights the minimum over walks is attained on simple
paths, so this is the claim's minimum over all paths. -/
def MinWalkDist (g : Graph) (s v : String) (d : WithTop Int) : Prop :=
  (∀ c : Int, d = (c : WithTop Int) → Walk g s v c ∧ ∀ c2, Walk g s v c2 → c ≤ c2) ∧
  (d = ⊤ → ∀ c, ¬Walk g s v c)

theorem walk_nonneg {g : Graph} {s v : String} {c : Int} (hp : PosW g)
    (hw : Walk g s v c) : 0 ≤ c := by
  induction hw with
  | nil => exact le_refl 0
  | cons hw he ih => exact add_nonneg ih (le_of_lt (posW_elookup hp he))

theorem walk_mem_keys {g : Graph} {s v : String} {c : Int}
    (hs : (dlookup g s).isSome) (hc : Closed g) (hw : Walk g s v c) :
    (dlookup g v).isSome := by
  induction hw with
  | nil => exact hs
  | cons hw he ih => exact hc _ _ _ he

/-! ### Heap-model lemmas -/

theorem findMinEntry_mem (best : Int × String) (l : List (Int × String)) :
    findMinEntry best l = best ∨ findMinEntry best l ∈ l := by
  induction l generalizing best with
  | nil => exact .inl rfl
  | cons x xs ih =>
      rw [findMinEntry]
      rcases ih (if pqLeB x best then x else best) with h | h
      · rw [h]
        by_cases hb : pqLeB x best
        · rw [if_pos hb]
          exact .inr (List.mem_cons_self x xs)
        · rw [if_neg hb]
          exact .inl rfl
      · exact .inr (List.mem_cons_of_mem x h)

theorem mem_removeFirst {l : List (Int × String)} {x y : Int × String}
    (h : x ∈ removeFirst l y) : x ∈ l := by
  induction l with
  | nil => simp [removeFirst] at h
  | cons z zs ih =>
      rw [removeFirst] at h
      by_cases hz : z = y
      · rw [if_pos hz] at h
        exact List.mem_cons_of_mem z h
      · rw [if_neg hz] at h
        rcases List.mem_cons.mp h with h2 | h2
        · rw [h2]
          exact List.mem_cons_self z zs
        · exact List.mem_cons_of_mem z (ih h2)

theorem mem_removeFirst_of_ne {l : List (Int × String)} {x y : Int × String}
    (hx : x ∈ l) (hne : x ≠ y) : x ∈ removeFirst l y := by
  induction l with
  | nil => simp at hx
  | cons z zs ih =>
      rw [removeFirst]
      by_cases hz : z = y
      · rw [if_pos hz]
        rcases List.mem_cons.mp hx with h2 | h2
        · exact absurd (h2.trans hz) hne
        · exact h2
      · rw [if_neg hz]
        rcases List.mem_cons.mp hx with h2 | h2
        · rw [h2]
          exact List.mem_cons_self z _
        · exact List.mem_cons_of_mem z (ih h2)

theorem length_removeFirst_lt {l : List (Int × String)} {y : Int × String}
    (hy : y ∈ l) : (removeFirst l y).length < l.length := by
  induction l with
  | nil => simp at hy
  | cons z zs ih =>
      rw [removeFirst]
      by_cases hz : z = y
      · rw [if_pos hz]
        simp
      · rw [if_neg hz]
        rcases List.mem_cons.mp hy with h2 | h2
        · exact absurd h2.symm hz
        · simpa using ih h2

theorem popMin_spec {q : List (Int × String)} {m : Int × String}
    {rest : List (Int × String)} (h : popMin q = some (m, rest)) :
    m ∈ q ∧ rest = removeFirst q m := by
  cases q with
  | nil => simp [popMin] at h
  | cons x xs =>
      rw [popMin] at h
      injection h with h2
      injection h2 with hm hr
      constructor
      · rw [← hm]
        rcases findMinEntry_mem x xs with h3 | h3
        · rw [h3]
          exact List.mem_cons_self x xs
        · exact List.mem_cons_of_mem x h3
      · rw [← hm, ← hr]

theorem popMin_eq_none_iff (q : List (Int × String)) : popMin q = none ↔ q = [] := by
  cases q <;> simp [popMin]

/-! ### Termination measure on distance dicts -/

/-- Finite part of a distance value, as a natural number (loop
invariants keep all finite distances nonnegative). -/
def valNat (x : WithTop Int) : Nat := (x.untop' 0).toNat

/-- Number of stations still at infinite distance. -/
def mTop (D : List (String × WithTop Int)) : Nat :=
  (D.filter (fun p => decide (p.2 = ⊤))).length

/-- Sum of the finite distance values. -/
def mSum (D : List (String × WithTop Int)) : Nat :=
  (D.map (fun p => valNat p.2)).sum

/-- Strict decrease of the distance dict in the lexicographic measure
(fewer infinite entries, or equally many and a smaller finite sum). -/
def MeasLtD (D2 D : List (String × WithTop Int)) : Prop :=
  mTop D2 < mTop D ∨ (mTop D2 = mTop D ∧ mSum D2 < mSum D)

theorem measLtD_trans {a b c : List (String × WithTop Int)}
    (h1 : MeasLtD a b) (h2 : MeasLtD b c) : MeasLtD a c := by
  rcases h1 with h1 | ⟨h1, h1s⟩ <;> rcases h2 with h2 | ⟨h2, h2s⟩
  · exact .inl (h1.trans h2)
  · exact .inl (h2 ▸ h1)
  · exact .inl (h1 ▸ h2)
  · exact .inr ⟨h1.trans h2, h1s.trans h2s⟩

theorem dset_decomp {α : Type} {d : List (String × α)} {k : String} {w : α}
    (h : dlookup d k = some w) (v : α) :
    ∃ l1 l2, d = l1 ++ (k, w) :: l2 ∧ dset d k v = l1 ++ (k, v) :: l2 := by
  induction d with
  | nil => simp [dlookup] at h
  | cons p rest ih =>
      obtain ⟨k0, v0⟩ := p
      by_cases hk : k0 = k
      · subst hk
        simp [dlookup] at h
        subst h
        exact ⟨[], rest, rfl, by simp [dset]⟩
      · simp [dlookup, hk] at h
        obtain ⟨l1, l2, h1, h2⟩ := ih h
        refine ⟨(k0, v0) :: l1, l2, by rw [h1]; rfl, ?_⟩
        rw [dset, if_neg hk, h2]
        rfl

theorem measLtD_dset {D : List (String × WithTop Int)} {k : String} {w : WithTop Int}
    (hw : dlookup D k = some w) {c : Int} (hc : 0 ≤ c)
    (hlt : ((c : Int) : WithTop Int) < w) :
    MeasLtD (dset D k ((c : Int) : WithTop Int)) D := by
  obtain ⟨l1, l2, h1, h2⟩ := dset_decomp hw ((c : Int) : WithTop Int)
  rw [h2, h1]
  cases w with
  | top =>
      left
      simp [mTop, List.filter_append]
  | coe cw =>
      right
      constructor
      · simp [mTop, List.filter_append]
      · have hccw : c < cw := WithTop.coe_lt_coe.mp hlt
        have h0cw : 0 < cw := lt_of_le_of_lt hc hccw
        have : c.toNat < cw.toNat := by omega
        simp only [mSum, List.map_append, List.map_cons, List.sum_append, List.sum_cons]
        have hv1 : valNat ((c : Int) : WithTop Int) = c.toNat := by
          simp [valNat, WithTop.untop'_coe]
        have hv2 : valNat ((cw : Int) : WithTop Int) = cw.toNat := by
          simp [valNat, WithTop.untop'_coe]
        rw [hv1, hv2]
        omega

/-! ### The loop invariant -/

/-- Invariant of the Dijkstra while loop at source `s`: the distance dict
has exactly the graph's keys; every finite entry is realised by a walk;
the source stays at 0; every queue entry dominates the current distance
of its station; every tense edge (one whose relaxation would still
improve its head) has its tail's current distance enqueued; every
predecessor entry is witnessed by an edge whose relaxation bound still
holds; and every station at finite distance other than the source has a
predecessor. -/
structure Inv (g : Graph) (s : String) (st : DState) : Prop where
  keys : ∀ v, (dlookup st.dist v).isSome ↔ (dlookup g v).isSome
  sound : ∀ v (c : Int), dlookup st.dist v = some ((c : Int) : WithTop Int) → Walk g s v c
  src : dlookup st.dist s = some ((0 : Int) : WithTop Int)
  qdom : ∀ e ∈ st.queue, ∃ dv, dlookup st.dist (Prod.snd e) = some dv ∧
      dv ≤ ((Prod.fst e : Int) : WithTop Int)
  tense : ∀ u v t du dv, elookup g u v = some t →
      dlookup st.dist u = some du → dlookup st.dist v = some dv →
      du + ((t : Int) : WithTop Int) < dv →
      ∃ c : Int, du = ((c : Int) : WithTop Int) ∧ (c, u) ∈ st.queue
  preds : ∀ v u, dlookup st.preds v = some u → ∃ t du dv, elookup g u v = some t ∧
      dlookup st.dist u = some du ∧ dlookup st.dist v = some dv ∧
      du + ((t : Int) : WithTop Int) ≤ dv
  predDom : ∀ v, v ≠ s → ∀ c : Int, dlookup st.dist v = some ((c : Int) : WithTop Int) →
      (dlookup st.preds v).isSome

/-- The tense-edge invariant, weakened during the inner for loop: tense
edges out of the station being expanded whose neighbor entry is still in
the unprocessed suffix `excl` are exempt. -/
def TenseExcept (g : Graph) (cur : String) (excl : List (String × Int)) (st : DState) :
    Prop :=
  ∀ u v t du dv, elookup g u v = some t →
    dlookup st.dist u = some du → dlookup st.dist v = some dv →
    du + ((t : Int) : WithTop Int) < dv →
    (u = cur ∧ (v, t) ∈ excl) ∨
      ∃ c : Int, du = ((c : Int) : WithTop Int) ∧ (c, u) ∈ st.queue

/-- Invariant holding between relaxations of the inner for loop, while
the neighbors in `excl` are still unprocessed. -/
structure MidInv (g : Graph) (s cur : String) (cd : Int) (excl : List (String × Int))
    (st : DState) : Prop where
  keys : ∀ v, (dlookup st.dist v).isSome ↔ (dlookup g v).isSome
  sound : ∀ v (c : Int), dlookup st.dist v = some ((c : Int) : WithTop Int) → Walk g s v c
  src : dlookup st.dist s = some ((0 : Int) : WithTop Int)
  qdom : ∀ e ∈ st.queue, ∃ dv, dlookup st.dist (Prod.snd e) = some dv ∧
      dv ≤ ((Prod.fst e : Int) : WithTop Int)
  tenseE : TenseExcept g cur excl st
  preds : ∀ v u, dlookup st.preds v = some u → ∃ t du dv, elookup g u v = some t ∧
      dlookup st.dist u = some du ∧ dlookup st.dist v = some dv ∧
      du + ((t : Int) : WithTop Int) ≤ dv
  predDom : ∀ v, v ≠ s → ∀ c : Int, dlookup st.dist v = some ((c : Int) : WithTop Int) →
      (dlookup st.preds v).isSome
  hcur : dlookup st.dist cur = some ((cd : Int) : WithTop Int)
  hwalk : Walk g s cur cd

/-- A single relaxation of the neighbor at the head of the unprocessed
list preserves the inner-loop invariant and either leaves the state
unchanged or strictly decreases the distance measure. -/
theorem relax_midInv {g : Graph} {s cur : String} {cd : Int} {xv : String} {xt : Int}
    {excl : List (String × Int)} {st st2 : DState}
    (hpos : PosW g) (hclosed : Closed g)
    (hx : elookup g cur xv = some xt)
    (hmi : MidInv g s cur cd ((xv, xt) :: excl) st)
    (hr : relax cd cur st (xv, xt) = some st2) :
    MidInv g s cur cd excl st2 ∧ (st2 = st ∨ MeasLtD st2.dist st.dist) := by
  rw [relax] at hr
  cases hdn : dlookup st.dist xv with
  | none =>
      rw [hdn] at hr
      exact absurd hr (by simp)
  | some dn =>
      rw [hdn] at hr
      dsimp only at hr
      by_cases hfire : ((cd + xt : Int) : WithTop Int) < dn
      case neg =>
        rw [if_neg hfire] at hr
        injection hr with hst
        subst hst
        refine ⟨⟨hmi.keys, hmi.sound, hmi.src, hmi.qdom, ?_, hmi.preds, hmi.predDom,
            hmi.hcur, hmi.hwalk⟩, .inl rfl⟩
        intro u v t du dv he hdu hdv hlt
        rcases hmi.tenseE u v t du dv he hdu hdv hlt with ⟨hucur, hmem⟩ | hw
        · rcases List.mem_cons.mp hmem with h1 | h1
          · injection h1 with hv1 ht1
            exfalso
            rw [hucur, hmi.hcur] at hdu
            have hdu2 : du = ((cd : Int) : WithTop Int) := (Option.some_inj.mp hdu).symm
            rw [hv1, hdn] at hdv
            have hdv2 : dv = dn := (Option.some_inj.mp hdv).symm
            refine hfire ?_
            rw [WithTop.coe_add, ← hdu2, ← ht1, ← hdv2]
            exact hlt
          · exact .inl ⟨hucur, h1⟩
        · exact .inr hw
      case pos =>
        rw [if_pos hfire] at hr
        injection hr with hst
        have h0cd : 0 ≤ cd := walk_nonneg hpos hmi.hwalk
        have hxt : 0 < xt := posW_elookup hpos hx
        have hxvcur : xv ≠ cur := by
          intro h
          rw [h, hmi.hcur] at hdn
          rw [← Option.some_inj.mp hdn] at hfire
          have := WithTop.coe_lt_coe.mp hfire
          omega
        have hxvkey : (dlookup g xv).isSome := hclosed cur xv xt hx
        have hsxv : s ≠ xv := by
          intro h
          rw [← h, hmi.src] at hdn
          rw [← Option.some_inj.mp hdn] at hfire
          have := WithTop.coe_lt_coe.mp hfire
          omega
        have hdist2 : st2.dist = dset st.dist xv ((cd + xt : Int) : WithTop Int) := by
          rw [← hst]
        have hpred2 : st2.preds = dset st.preds xv cur := by
          rw [← hst]
        have hq2 : st2.queue = (cd + xt, xv) :: st.queue := by
          rw [← hst]
        have hkeys2 : ∀ v, (dlookup st2.dist v).isSome ↔ (dlookup g v).isSome := by
          intro v
          rw [hdist2, isSome_dlookup_dset]
          constructor
          · rintro (h | h)
            · rw [h]; exact hxvkey
            · exact (hmi.keys v).mp h
          · intro h
            exact .inr ((hmi.keys v).mpr h)
        have hsound2 : ∀ v (c : Int), dlookup st2.dist v = some ((c : Int) : WithTop Int) →
            Walk g s v c := by
          intro v c hv
          rw [hdist2] at hv
          by_cases hvx : v = xv
          · rw [hvx, dlookup_dset_self] at hv
            have hceq : cd + xt = c := WithTop.coe_inj.mp (Option.some_inj.mp hv)
            rw [hvx, ← hceq]
            exact Walk.cons hmi.hwalk hx
          · rw [dlookup_dset_ne _ _ _ _ hvx] at hv
            exact hmi.sound v c hv
        have hsrc2 : dlookup st2.dist s = some ((0 : Int) : WithTop Int) := by
          rw [hdist2, dlookup_dset_ne _ _ _ _ hsxv]
          exact hmi.src
        have hqdom2 : ∀ e ∈ st2.queue, ∃ dv, dlookup st2.dist (Prod.snd e) = some dv ∧
            dv ≤ ((Prod.fst e : Int) : WithTop Int) := by
          intro e he
          rw [hq2] at he
          rw [hdist2]
          rcases List.mem_cons.mp he with h1 | h1
          · rw [h1]
            exact ⟨((cd + xt : Int) : WithTop Int), dlookup_dset_self _ _ _, le_refl _⟩
          · obtain ⟨dv, hdv, hle⟩ := hmi.qdom e h1
            by_cases hex : Prod.snd e = xv
            · rw [hex]
              refine ⟨((cd + xt : Int) : WithTop Int), dlookup_dset_self _ _ _, ?_⟩
              rw [hex, hdn] at hdv
              have hdneq : dn = dv := Option.some_inj.mp hdv
              have hdnle : dn ≤ ((Prod.fst e : Int) : WithTop Int) := by
                rw [hdneq]; exact hle
              exact le_trans (le_of_lt hfire) hdnle
            · rw [dlookup_dset_ne _ _ _ _ hex]
              exact ⟨dv, hdv, hle⟩
        have htenseE2 : TenseExcept g cur excl st2 := by
          intro u v t du dv he hdu hdv hlt
          rw [hdist2] at hdu hdv
          rw [hq2]
          by_cases hu : u = xv
          · rw [hu, dlookup_dset_self] at hdu
            refine .inr ⟨cd + xt, (Option.some_inj.mp hdu).symm, ?_⟩
            rw [hu]
            exact List.mem_cons_self _ _
          · rw [dlookup_dset_ne _ _ _ _ hu] at hdu
            by_cases hv2 : v = xv
            · rw [hv2, dlookup_dset_self] at hdv
              have hdveq : dv = ((cd + xt : Int) : WithTop Int) :=
                (Option.some_inj.mp hdv).symm
              have hlt2 : du + ((t : Int) : WithTop Int) < dn := by
                calc du + ((t : Int) : WithTop Int) < dv := hlt
                  _ = ((cd + xt : Int) : WithTop Int) := hdveq
                  _ < dn := hfire
              rw [hv2] at he
              rcases hmi.tenseE u xv t du dn he hdu hdn hlt2 with ⟨hucur, hmem⟩ | ⟨c, hc, hcq⟩
              · rcases List.mem_cons.mp hmem with h1 | h1
                · injection h1 with hv1 ht1
                  exfalso
                  rw [hucur, hmi.hcur] at hdu
                  have hdueq : du = ((cd : Int) : WithTop Int) :=
                    (Option.some_inj.mp hdu).symm
                  rw [hdueq, ht1, hdveq, ← WithTop.coe_add] at hlt
                  exact lt_irrefl _ hlt
                · rw [hv2]
                  exact .inl ⟨hucur, h1⟩
              · exact .inr ⟨c, hc, List.mem_cons_of_mem _ hcq⟩
            · rw [dlookup_dset_ne _ _ _ _ hv2] at hdv
              rcases hmi.tenseE u v t du dv he hdu hdv hlt with ⟨hucur, hmem⟩ | ⟨c, hc, hcq⟩
              · rcases List.mem_cons.mp hmem with h1 | h1
                · injection h1 with hv1 ht1
                  exact absurd hv1 hv2
                · exact .inl ⟨hucur, h1⟩
              · exact .inr ⟨c, hc, List.mem_cons_of_mem _ hcq⟩
        have hpreds2 : ∀ v u, dlookup st2.preds v = some u → ∃ t du dv,
            elookup g u v = some t ∧ dlookup st2.dist u = some du ∧
            dlookup st2.dist v = some dv ∧ du + ((t : Int) : WithTop Int) ≤ dv := by
          intro v u hvu
          rw [hpred2] at hvu
          rw [hdist2]
          by_cases hv2 : v = xv
          · rw [hv2, dlookup_dset_self] at hvu
            have hueq : u = cur := (Option.some_inj.mp hvu).symm
            refine ⟨xt, ((cd : Int) : WithTop Int), ((cd + xt : Int) : WithTop Int),
              ?_, ?_, ?_, ?_⟩
            · rw [hueq, hv2]; exact hx
            · rw [hueq, dlookup_dset_ne _ _ _ _ (Ne.symm hxvcur)]
              exact hmi.hcur
            · rw [hv2]; exact dlookup_dset_self _ _ _
            · rw [← WithTop.coe_add]
          · rw [dlookup_dset_ne _ _ _ _ hv2] at hvu
            obtain ⟨t, du, dv, he, hdu, hdv, hle⟩ := hmi.preds v u hvu
            by_cases hu2 : u = xv
            · have hdueq : du = dn := by
                rw [hu2, hdn] at hdu
                exact (Option.some_inj.mp hdu).symm
              refine ⟨t, ((cd + xt : Int) : WithTop Int), dv, he, ?_, ?_, ?_⟩
              · rw [hu2]; exact dlookup_dset_self _ _ _
              · rw [dlookup_dset_ne _ _ _ _ hv2]; exact hdv
              · calc ((cd + xt : Int) : WithTop Int) + ((t : Int) : WithTop Int)
                    ≤ dn + ((t : Int) : WithTop Int) := add_le_add_right (le_of_lt hfire) _
                  _ = du + ((t : Int) : WithTop Int) := by rw [hdueq]
                  _ ≤ dv := hle
            · refine ⟨t, du, dv, he, ?_, ?_, hle⟩
              · rw [dlookup_dset_ne _ _ _ _ hu2]; exact hdu
              · rw [dlookup_dset_ne _ _ _ _ hv2]; exact hdv
        have hpredDom2 : ∀ v, v ≠ s → ∀ c : Int,
            dlookup st2.dist v = some ((c : Int) : WithTop Int) →
            (dlookup st2.preds v).isSome := by
          intro v hvs c hv
          rw [hpred2, isSome_dlookup_dset]
          by_cases hv2 : v = xv
          · exact .inl hv2
          · rw [hdist2, dlookup_dset_ne _ _ _ _ hv2] at hv
            exact .inr (hmi.predDom v hvs c hv)
        have hcur2 : dlookup st2.dist cur = some ((cd : Int) : WithTop Int) := by
          rw [hdist2, dlookup_dset_ne _ _ _ _ (Ne.symm hxvcur)]
          exact hmi.hcur
        refine ⟨⟨hkeys2, hsound2, hsrc2, hqdom2, htenseE2, hpreds2, hpredDom2,
            hcur2, hmi.hwalk⟩, .inr ?_⟩
        rw [hdist2]
        exact measLtD_dset hdn (by omega) hfire

/-- Running the inner for loop over a suffix of the neighbor list
preserves the invariant, never raises, and either leaves the state
unchanged or strictly decreases the distance measure. -/
theorem relaxList_midInv {g : Graph} {s cur : String} {cd : Int}
    (hpos : PosW g) (hclosed : Closed g) :
    ∀ (l : List (String × Int)) (st : DState),
      (∀ p ∈ l, elookup g cur p.1 = some p.2) →
      MidInv g s cur cd l st →
      ∃ st2, relaxList cd cur st l = some st2 ∧ MidInv g s cur cd [] st2 ∧
        (st2 = st ∨ MeasLtD st2.dist st.dist) := by
  intro l
  induction l with
  | nil =>
      intro st hl hmi
      exact ⟨st, rfl, hmi, .inl rfl⟩
  | cons p rest ih =>
      intro st hl hmi
      obtain ⟨pv, pt⟩ := p
      have hpe : elookup g cur pv = some pt := hl _ (List.mem_cons_self _ _)
      have hkey : (dlookup st.dist pv).isSome :=
        (hmi.keys pv).mpr (hclosed cur pv pt hpe)
      obtain ⟨dn, hdn⟩ := Option.isSome_iff_exists.mp hkey
      cases hr : relax cd cur st (pv, pt) with
      | none =>
          rw [relax, hdn] at hr
          dsimp only at hr
          by_cases hf : ((cd + pt : Int) : WithTop Int) < dn
          · rw [if_pos hf] at hr
            exact absurd hr (by simp)
          · rw [if_neg hf] at hr
            exact absurd hr (by simp)
      | some stm =>
          obtain ⟨hmi2, hm⟩ := relax_midInv hpos hclosed hpe hmi hr
          obtain ⟨st2, hrl, hmi3, hm2⟩ :=
            ih stm (fun q hq => hl q (List.mem_cons_of_mem _ hq)) hmi2
          refine ⟨st2, ?_, hmi3, ?_⟩
          · rw [relaxList, hr]
            exact hrl
          · rcases hm2 with h2 | h2
            · rw [h2]
              exact hm
            · rcases hm with h3 | h3
              · rw [h3] at h2
                exact .inr h2
              · exact .inr (measLtD_trans h2 h3)

theorem elookup_isSome_left {g : Graph} {v w : String} {t : Int}
    (h : elookup g v w = some t) : (dlookup g v).isSome := by
  unfold elookup at h
  cases hh : dlookup g v with
  | none => rw [hh] at h; simp at h
  | some d => simp [hh]

/-- One iteration of the while loop, from an invariant state: it either
reports the queue empty, or produces an invariant state of strictly
smaller measure (distance measure, or equal distances and a shorter
queue); the `KeyError` branch is unreachable. -/
theorem dijkstraStep_good {g : Graph} {s : String} {st : DState}
    (hpos : PosW g) (hclosed : Closed g) (hnodup : InnerNodup g) (hinv : Inv g s st) :
    dijkstraStep g st = .done ∨
      ∃ st2, dijkstraStep g st = .next st2 ∧ Inv g s st2 ∧
        (MeasLtD st2.dist st.dist ∨
          (st2.dist = st.dist ∧ st2.queue.length < st.queue.length)) := by
  rw [dijkstraStep]
  cases hq : popMin st.queue with
  | none => exact .inl rfl
  | some pr =>
      obtain ⟨⟨cd, cur⟩, rest⟩ := pr
      obtain ⟨hmem, hrest⟩ := popMin_spec hq
      obtain ⟨dcur, hdcur, hdle⟩ := hinv.qdom (cd, cur) hmem
      dsimp only
      rw [hdcur]
      dsimp only
      have hqdomRest : ∀ e ∈ rest, ∃ dv, dlookup st.dist (Prod.snd e) = some dv ∧
          dv ≤ ((Prod.fst e : Int) : WithTop Int) := by
        intro e he
        rw [hrest] at he
        exact hinv.qdom e (mem_removeFirst he)
      by_cases hstale : dcur < ((cd : Int) : WithTop Int)
      · rw [if_pos hstale]
        refine .inr ⟨⟨st.dist, st.preds, rest⟩, rfl, ?_, .inr ⟨rfl, ?_⟩⟩
        · refine ⟨hinv.keys, hinv.sound, hinv.src, hqdomRest, ?_, hinv.preds, hinv.predDom⟩
          show ∀ u v t du dv, elookup g u v = some t →
            dlookup st.dist u = some du → dlookup st.dist v = some dv →
            du + ((t : Int) : WithTop Int) < dv →
            ∃ c : Int, du = ((c : Int) : WithTop Int) ∧ (c, u) ∈ rest
          intro u v t du dv he hdu hdv hlt
          obtain ⟨c, hc, hcq⟩ := hinv.tense u v t du dv he hdu hdv hlt
          refine ⟨c, hc, ?_⟩
          have hne : (c, u) ≠ (cd, cur) := by
            intro heq
            injection heq with hc1 hu1
            rw [hu1, hdcur] at hdu
            have hdud : du = dcur := (Option.some_inj.mp hdu).symm
            have hdc2 : dcur = ((cd : Int) : WithTop Int) := by
              rw [← hdud, hc, hc1]
            rw [hdc2] at hstale
            exact lt_irrefl _ hstale
          rw [hrest]
          exact mem_removeFirst_of_ne hcq hne
        · show rest.length < st.queue.length
          rw [hrest]
          exact length_removeFirst_lt hmem
      · rw [if_neg hstale]
        have hdceq : dcur = ((cd : Int) : WithTop Int) :=
          le_antisymm hdle (not_lt.mp hstale)
        have hwalkc : Walk g s cur cd := by
          refine hinv.sound cur cd ?_
          rw [← hdceq]
          exact hdcur
        have hedges : ∀ p ∈ (dlookup g cur).getD [], elookup g cur p.1 = some p.2 := by
          cases hgc : dlookup g cur with
          | none =>
              intro p hp
              simp at hp
          | some d =>
              intro p hp
              simp only [Option.getD_some] at hp
              have hnd : (d.map Prod.fst).Nodup := hnodup (cur, d) (dlookup_mem hgc)
              unfold elookup
              rw [hgc]
              simp only [Option.some_bind]
              exact mem_dlookup_of_nodup hnd hp
        have hmid : MidInv g s cur cd ((dlookup g cur).getD [])
            ⟨st.dist, st.preds, rest⟩ := by
          refine ⟨hinv.keys, hinv.sound, hinv.src, hqdomRest, ?_, hinv.preds,
            hinv.predDom, ?_, hwalkc⟩
          · show TenseExcept g cur ((dlookup g cur).getD []) ⟨st.dist, st.preds, rest⟩
            intro u v t du dv he hdu hdv hlt
            obtain ⟨c, hc, hcq⟩ := hinv.tense u v t du dv he hdu hdv hlt
            by_cases huc : (c, u) = (cd, cur)
            · injection huc with hc1 hu1
              left
              refine ⟨hu1, ?_⟩
              unfold elookup at he
              rw [hu1] at he
              cases hgc : dlookup g cur with
              | none =>
                  rw [hgc] at he
                  simp at he
              | some d =>
                  rw [hgc] at he
                  simp only [Option.some_bind] at he
                  simp only [Option.getD_some]
                  exact dlookup_mem he
            · right
              refine ⟨c, hc, ?_⟩
              show (c, u) ∈ rest
              rw [hrest]
              exact mem_removeFirst_of_ne hcq huc
          · show dlookup st.dist cur = some ((cd : Int) : WithTop Int)
            rw [← hdceq]
            exact hdcur
        obtain ⟨st2, hrl, hmi3, hm⟩ :=
          relaxList_midInv hpos hclosed ((dlookup g cur).getD [])
            ⟨st.dist, st.preds, rest⟩ hedges hmid
        rw [hrl]
        dsimp only
        refine .inr ⟨st2, rfl, ?_, ?_⟩
        · refine ⟨hmi3.keys, hmi3.sound, hmi3.src, hmi3.qdom, ?_, hmi3.preds, hmi3.predDom⟩
          intro u v t du dv he hdu hdv hlt
          rcases hmi3.tenseE u v t du dv he hdu hdv hlt with ⟨_, hmem2⟩ | hw
          · simp at hmem2
          · exact hw
        · rcases hm with h2 | h2
          · rw [h2]
            right
            refine ⟨rfl, ?_⟩
            show rest.length < st.queue.length
            rw [hrest]
            exact length_removeFirst_lt hmem
          · exact .inl h2

theorem dijkstraStep_done_queue {g : Graph} {st : DState}
    (h : dijkstraStep g st = .done) : st.queue = [] := by
  rw [dijkstraStep] at h
  cases hq : popMin st.queue with
  | none => exact (popMin_eq_none_iff _).mp hq
  | some pr =>
      obtain ⟨⟨cd, cur⟩, rest⟩ := pr
      rw [hq] at h
      dsimp only at h
      cases hd : dlookup st.dist cur with
      | none =>
          rw [hd] at h
          exact StepRes.noConfusion h
      | some dcur =>
          rw [hd] at h
          dsimp only at h
          by_cases hs : dcur < ((cd : Int) : WithTop Int)
          · rw [if_pos hs] at h
            exact StepRes.noConfusion h
          · rw [if_neg hs] at h
            cases hrl : relaxList cd cur ⟨st.dist, st.preds, rest⟩
                ((dlookup g cur).getD []) with
            | none =>
                rw [hrl] at h
                exact StepRes.noConfusion h
            | some st2 =>
                rw [hrl] at h
                exact StepRes.noConfusion h

/-- From any invariant state the while loop reaches, in some finite
number of iterations, a terminal state with an empty queue, never
hitting the `KeyError` branch. The proof is by well-founded descent on
(number of infinite distances, sum of finite distances, queue length). -/
theorem dijkstraRun_term {g : Graph} {s : String}
    (hpos : PosW g) (hclosed : Closed g) (hnodup : InnerNodup g) :
    ∀ (a b c : Nat) (st : DState), Inv g s st → mTop st.dist = a → mSum st.dist = b →
      st.queue.length = c →
      ∃ n st2, dijkstraRun g n st = .out st2 ∧ Inv g s st2 ∧ st2.queue = [] := by
  intro a
  induction a using Nat.strong_induction_on with
  | _ a iha =>
    intro b
    induction b using Nat.strong_induction_on with
    | _ b ihb =>
      intro c
      induction c using Nat.strong_induction_on with
      | _ c ihc =>
        intro st hinv hma hmb hmc
        rcases dijkstraStep_good hpos hclosed hnodup hinv with hdone |
          ⟨st2, hnext, hinv2, hmeas⟩
        · refine ⟨1, st, ?_, hinv, dijkstraStep_done_queue hdone⟩
          rw [dijkstraRun, hdone]
        · have hstep : ∀ n st3, dijkstraRun g n st2 = .out st3 →
              dijkstraRun g (n + 1) st = .out st3 := by
            intro n st3 hr
            rw [dijkstraRun, hnext]
            exact hr
          rcases hmeas with hlt | ⟨hde, hql⟩
          · rcases hlt with h1 | ⟨h1, h2⟩
            · have h1a : mTop st2.dist < a := by
                rw [← hma]
                exact h1
              obtain ⟨n, st3, hrun, hinv3, hq3⟩ :=
                iha (mTop st2.dist) h1a (mSum st2.dist) (st2.queue.length) st2 hinv2
                  rfl rfl rfl
              exact ⟨n + 1, st3, hstep n st3 hrun, hinv3, hq3⟩
            · have h1a : mTop st2.dist = a := by
                rw [← hma]
                exact h1
              have h2b : mSum st2.dist < b := by
                rw [← hmb]
                exact h2
              obtain ⟨n, st3, hrun, hinv3, hq3⟩ :=
                ihb (mSum st2.dist) h2b (st2.queue.length) st2 hinv2 h1a rfl rfl
              exact ⟨n + 1, st3, hstep n st3 hrun, hinv3, hq3⟩
          · have h1a : mTop st2.dist = a := by
              rw [← hma, hde]
            have h2b : mSum st2.dist = b := by
              rw [← hmb, hde]
            have h3c : st2.queue.length < c := by
              rw [← hmc]
              exact hql
            obtain ⟨n, st3, hrun, hinv3, hq3⟩ :=
              ihc (st2.queue.length) h3c st2 hinv2 h1a h2b rfl
            exact ⟨n + 1, st3, hstep n st3 hrun, hinv3, hq3⟩

theorem dijkstraRun_mono {g : Graph} {st st2 : DState} :
    ∀ {n : Nat}, dijkstraRun g n st = .out st2 → ∀ m, n ≤ m →
      dijkstraRun g m st = .out st2 := by
  intro n
  induction n generalizing st with
  | zero =>
      intro h
      rw [dijkstraRun] at h
      exact RunRes.noConfusion h
  | succ n ih =>
      intro h m hm
      obtain ⟨m2, rfl⟩ : ∃ m2, m = m2 + 1 := ⟨m - 1, by omega⟩
      rw [dijkstraRun] at h
      rw [dijkstraRun]
      cases hstep : dijkstraStep g st with
      | done =>
          rw [hstep] at h
          exact h
      | keyErr =>
          rw [hstep] at h
          exact RunRes.noConfusion h
      | next st3 =>
          rw [hstep] at h
          exact ih h m2 (by omega)

theorem dlookup_mapTop (g : Graph) (v : String) :
    dlookup (g.map (fun p => (p.1, (⊤ : WithTop Int)))) v =
      (dlookup g v).map (fun _ => (⊤ : WithTop Int)) := by
  induction g with
  | nil => simp [dlookup]
  | cons p rest ih =>
      obtain ⟨k, d⟩ := p
      by_cases hk : k = v
      · simp [dlookup, hk]
      · simp [dlookup, hk, ih]

/-- The initial state of the loop satisfies the invariant when the start
station is a key of the graph. -/
theorem dijkstraInit_inv {g : Graph} {s : String} (hs : (dlookup g s).isSome) :
    Inv g s (dijkstraInit g s) := by
  have hlook : ∀ v, v ≠ s →
      dlookup (dijkstraInit g s).dist v =
        (dlookup g v).map (fun _ => (⊤ : WithTop Int)) := by
    intro v hv
    show dlookup (dset _ s _) v = _
    rw [dlookup_dset_ne _ _ _ _ hv, dlookup_mapTop]
  have hlooks : dlookup (dijkstraInit g s).dist s = some ((0 : Int) : WithTop Int) := by
    show dlookup (dset _ s _) s = _
    exact dlookup_dset_self _ _ _
  refine ⟨?_, ?_, hlooks, ?_, ?_, ?_, ?_⟩
  · intro v
    by_cases hv : v = s
    · rw [hv, hlooks]
      simp [hs]
    · rw [hlook v hv]
      cases dlookup g v <;> simp
  · intro v c hv
    by_cases hvs : v = s
    · rw [hvs, hlooks] at hv
      have hc : (0 : Int) = c := WithTop.coe_inj.mp (Option.some_inj.mp hv)
      rw [hvs, ← hc]
      exact Walk.nil
    · rw [hlook v hvs] at hv
      cases hgv : dlookup g v with
      | none => rw [hgv] at hv; simp at hv
      | some d =>
          rw [hgv] at hv
          simp only [Option.map_some'] at hv
          exact absurd (Option.some_inj.mp hv) (by simp)
  · intro e he
    have he2 : e ∈ [((0 : Int), s)] := he
    rcases List.mem_cons.mp he2 with h1 | h1
    · rw [h1]
      exact ⟨((0 : Int) : WithTop Int), hlooks, le_refl _⟩
    · simp at h1
  · intro u v t du dv he hdu hdv hlt
    by_cases hus : u = s
    · refine ⟨0, ?_, ?_⟩
      · rw [hus, hlooks] at hdu
        exact (Option.some_inj.mp hdu).symm
      · rw [hus]
        exact List.mem_cons_self _ _
    · rw [hlook u hus] at hdu
      cases hgu : dlookup g u with
      | none => rw [hgu] at hdu; simp at hdu
      | some d =>
          rw [hgu] at hdu
          simp only [Option.map_some'] at hdu
          have hdut : du = ⊤ := (Option.some_inj.mp hdu).symm
          rw [hdut, top_add] at hlt
          exact absurd hlt (not_top_lt)
  · intro v u hvu
    have hvu2 : dlookup ([] : List (String × String)) v = some u := hvu
    simp [dlookup] at hvu2
  · intro v hvs c hv
    rw [hlook v hvs] at hv
    cases hgv : dlookup g v with
    | none => rw [hgv] at hv; simp at hv
    | some d =>
        rw [hgv] at hv
        simp only [Option.map_some'] at hv
        exact absurd (Option.some_inj.mp hv) (by simp)

/-- Dijkstra's loop, started on any graph key, terminates in an
invariant state with empty queue (for some fuel). -/
theorem dijkstra_terminates {g : Graph} {s : String}
    (hpos : PosW g) (hclosed : Closed g) (hnodup : InnerNodup g)
    (hs : (dlookup g s).isSome) :
    ∃ n st, dijkstraRun g n (dijkstraInit g s) = .out st ∧ Inv g s st ∧
      st.queue = [] :=
  dijkstraRun_term hpos hclosed hnodup _ _ _ (dijkstraInit g s)
    (dijkstraInit_inv hs) rfl rfl rfl

/-- In a terminal state, every distance entry is the minimum walk cost:
the soundness invariant bounds it below and the absence of tense edges
bounds it above along every walk. -/
theorem terminal_minWalkDist {g : Graph} {s : String} {st : DState}
    (hinv : Inv g s st) (hq : st.queue = []) :
    ∀ v, (dlookup g v).isSome → ∃ d, dlookup st.dist v = some d ∧ MinWalkDist g s v d := by
  have hub : ∀ (v : String) (c2 : Int), Walk g s v c2 →
      ∀ dv, dlookup st.dist v = some dv → dv ≤ ((c2 : Int) : WithTop Int) := by
    intro v c2 hw
    induction hw with
    | nil =>
        intro dv hdv
        rw [hinv.src] at hdv
        rw [← Option.some_inj.mp hdv]
    | @cons v2 w2 c0 t0 hw2 he ih =>
        intro dw hdw
        have hvkey : (dlookup st.dist v2).isSome :=
          (hinv.keys v2).mpr (elookup_isSome_left he)
        obtain ⟨du, hdu⟩ := Option.isSome_iff_exists.mp hvkey
        have hnt : ¬(du + ((t0 : Int) : WithTop Int) < dw) := by
          intro hlt
          obtain ⟨c1, hc1, hcq⟩ := hinv.tense v2 w2 t0 du dw he hdu hdw hlt
          rw [hq] at hcq
          simp at hcq
        have hle : dw ≤ du + ((t0 : Int) : WithTop Int) := not_lt.mp hnt
        have hduc := ih du hdu
        calc dw ≤ du + ((t0 : Int) : WithTop Int) := hle
          _ ≤ ((c0 : Int) : WithTop Int) + ((t0 : Int) : WithTop Int) :=
              add_le_add_right hduc _
          _ = ((c0 + t0 : Int) : WithTop Int) := (WithTop.coe_add _ _).symm
  intro v hv
  obtain ⟨d, hd⟩ := Option.isSome_iff_exists.mp ((hinv.keys v).mpr hv)
  refine ⟨d, hd, ?_, ?_⟩
  · intro c hdc
    rw [hdc] at hd
    refine ⟨hinv.sound v c hd, ?_⟩
    intro c2 hw2
    exact WithTop.coe_le_coe.mp (hub v c2 hw2 _ hd)
  · intro hdt c hw
    have h2 := hub v c hw d hd
    rw [hdt] at h2
    exact absurd h2 (by simp)

/-! ### Path reconstruction -/

/-- Sum of the edge weights along consecutive stops of a path (`none` if
some consecutive pair is not an edge); the quantity the spec asks to
compare against the distance-table entry. -/
def costAlong (g : Graph) : List String → Option Int
  | [] => some 0
  | [_] => some 0
  | a :: b :: rest =>
      match elookup g a b, costAlong g (b :: rest) with
      | some t, some c => some (t + c)
      | _, _ => none

theorem costAlong_cons_cons (g : Graph) (a b : String) (rest : List String) :
    costAlong g (a :: b :: rest) =
      match elookup g a b, costAlong g (b :: rest) with
      | some t, some c => some (t + c)
      | _, _ => none := rfl

theorem getLast?_append_single {α : Type} (l : List α) (a : α) :
    (l ++ [a]).getLast? = some a := by
  induction l with
  | nil => rfl
  | cons b rest ih =>
      cases rest with
      | nil => rfl
      | cons c rest2 =>
          rw [List.cons_append, List.cons_append, List.getLast?_cons_cons]
          exact ih

theorem costAlong_append_last (g : Graph) :
    ∀ (p : List String) (u w : String) (c t : Int), p.getLast? = some u →
      costAlong g p = some c → elookup g u w = some t →
      costAlong g (p ++ [w]) = some (c + t) := by
  intro p
  induction p with
  | nil =>
      intro u w c t hl
      simp at hl
  | cons a rest ih =>
      intro u w c t hl hc he
      cases rest with
      | nil =>
          have hua : u = a := by
            simp at hl
            rw [hl]
          have hc0 : c = 0 := by
            have : costAlong g [a] = some 0 := rfl
            rw [hc] at this
            exact Option.some_inj.mp this
          rw [hua] at he
          show costAlong g [a, w] = some (c + t)
          rw [costAlong_cons_cons, he]
          show some (t + 0) = some (c + t)
          rw [hc0]
          norm_num
      | cons b rest2 =>
          have hl2 : (b :: rest2).getLast? = some u := by
            rw [List.getLast?_cons_cons] at hl
            exact hl
          rw [costAlong_cons_cons] at hc
          cases hab : elookup g a b with
          | none =>
              rw [hab] at hc
              simp at hc
          | some t1 =>
              rw [hab] at hc
              cases hc1 : costAlong g (b :: rest2) with
              | none =>
                  rw [hc1] at hc
                  simp at hc
              | some c1 =>
                  rw [hc1] at hc
                  have hceq : c = t1 + c1 := by
                    have : some (t1 + c1) = some c := hc
                    exact (Option.some_inj.mp this).symm
                  have hrec := ih u w c1 t hl2 hc1 he
                  show costAlong g (a :: ((b :: rest2) ++ [w])) = some (c + t)
                  rw [List.cons_append, costAlong_cons_cons, hab]
                  have hrec2 : costAlong g (b :: (rest2 ++ [w])) = some (c1 + t) := hrec
                  rw [hrec2]
                  show some (t1 + (c1 + t)) = some (c + t)
                  rw [hceq]
                  norm_num [add_assoc]

/-- In a terminal state, a station at finite distance other than the
source has a predecessor whose edge is tight: the distances differ by
exactly the edge weight. -/
theorem terminal_pred_tight {g : Graph} {s : String} {st : DState}
    (hpos : PosW g) (hinv : Inv g s st) (hq : st.queue = [])
    {v : String} {c : Int} (hvs : v ≠ s)
    (hv : dlookup st.dist v = some ((c : Int) : WithTop Int)) :
    ∃ u t cu, dlookup st.preds v = some u ∧ elookup g u v = some t ∧
      dlookup st.dist u = some ((cu : Int) : WithTop Int) ∧ cu + t = c ∧
      0 < t ∧ 0 ≤ cu := by
  obtain ⟨u, hu⟩ := Option.isSome_iff_exists.mp (hinv.predDom v hvs c hv)
  obtain ⟨t, du, dv, he, hdu, hdv, hle⟩ := hinv.preds v u hu
  have hdveq : dv = ((c : Int) : WithTop Int) := by
    rw [hv] at hdv
    exact (Option.some_inj.mp hdv).symm
  have hnt : ¬(du + ((t : Int) : WithTop Int) < dv) := by
    intro hlt
    obtain ⟨c1, hc1, hcq⟩ := hinv.tense u v t du dv he hdu hdv hlt
    rw [hq] at hcq
    simp at hcq
  have heq : du + ((t : Int) : WithTop Int) = dv := le_antisymm hle (not_lt.mp hnt)
  cases hdu2 : du with
  | top =>
      rw [hdu2, top_add, hdveq] at heq
      exact absurd heq.symm (by simp)
  | coe cu =>
      rw [hdu2, hdveq, ← WithTop.coe_add] at heq
      have hcut : cu + t = c := WithTop.coe_inj.mp heq
      rw [hdu2] at hdu
      refine ⟨u, t, cu, hu, he, hdu, hcut, posW_elookup hpos he, ?_⟩
      exact walk_nonneg hpos (hinv.sound u cu hdu)

/-- In a terminal state, the reconstruction loop of `find_shortest_path`
walks back from any station at finite distance `c`, with any fuel above
`c.toNat`, and returns a path from the source whose summed edge weights
equal `c`. -/
theorem reconstruct_terminal {g : Graph} {s : String} {st : DState}
    (hpos : PosW g) (hinv : Inv g s st) (hq : st.queue = []) :
    ∀ (n : Nat) (v : String) (c : Int),
      dlookup st.dist v = some ((c : Int) : WithTop Int) → c.toNat ≤ n →
      ∃ p, p.head? = some s ∧ p.getLast? = some v ∧ costAlong g p = some c ∧
        ∀ (acc : List String) (fuel : Nat), n < fuel →
          walkBack st.preds s fuel v acc = some (some (p ++ acc)) := by
  intro n
  induction n using Nat.strong_induction_on with
  | _ n ih =>
    intro v c hv hcn
    by_cases hvs : v = s
    · have hc0 : c = 0 := by
        rw [hvs, hinv.src] at hv
        exact (WithTop.coe_inj.mp (Option.some_inj.mp hv)).symm
      rw [hvs]
      refine ⟨[s], rfl, rfl, ?_, ?_⟩
      · rw [hc0]
        rfl
      · intro acc fuel hfuel
        cases fuel with
        | zero => rw [walkBack, if_pos rfl]; rfl
        | succ f => rw [walkBack, if_pos rfl]; rfl
    · obtain ⟨u, t, cu, hu, he, hdu, hct, ht, hcu⟩ :=
        terminal_pred_tight hpos hinv hq hvs hv
      have hcpos : 0 < c := by omega
      have hlt : cu.toNat < c.toNat := by omega
      obtain ⟨p0, hh0, hl0, hc0, hwb0⟩ := ih (n - 1) (by omega) u cu hdu (by omega)
      refine ⟨p0 ++ [v], ?_, getLast?_append_single p0 v, ?_, ?_⟩
      · cases p0 with
        | nil => simp at hh0
        | cons a tl => exact hh0
      · have := costAlong_append_last g p0 u v cu t hl0 hc0 he
        rw [this, hct]
      · intro acc fuel hfuel
        obtain ⟨f, rfl⟩ : ∃ f, fuel = f + 1 := ⟨fuel - 1, by omega⟩
        rw [walkBack, if_neg hvs, hu]
        dsimp only
        have hwb := hwb0 (v :: acc) f (by omega)
        rw [hwb, List.append_assoc]
        rfl

/-! ### Key-error freedom without sign assumptions -/

theorem adjacency_edges {g : Graph} (hnodup : InnerNodup g) (cur : String) :
    ∀ p ∈ (dlookup g cur).getD [], elookup g cur p.1 = some p.2 := by
  cases hgc : dlookup g cur with
  | none =>
      intro p hp
      simp at hp
  | some d =>
      intro p hp
      simp only [Option.getD_some] at hp
      have hnd : (d.map Prod.fst).Nodup := hnodup (cur, d) (dlookup_mem hgc)
      unfold elookup
      rw [hgc]
      simp only [Option.some_bind]
      exact mem_dlookup_of_nodup hnd hp

/-- The inner for loop never raises and preserves the two facts needed
for key-error freedom (distance keys = graph keys; queued stations have
distance entries), with no assumption on edge signs. -/
theorem relaxList_kinv {g : Graph} (hclosed : Closed g) {cd : Int} {cur : String} :
    ∀ (l : List (String × Int)) (st : DState),
      (∀ p ∈ l, elookup g cur p.1 = some p.2) →
      (∀ v, (dlookup st.dist v).isSome ↔ (dlookup g v).isSome) →
      (∀ e ∈ st.queue, (dlookup st.dist (Prod.snd e)).isSome) →
      ∃ st2, relaxList cd cur st l = some st2 ∧
        (∀ v, (dlookup st2.dist v).isSome ↔ (dlookup g v).isSome) ∧
        (∀ e ∈ st2.queue, (dlookup st2.dist (Prod.snd e)).isSome) := by
  intro l
  induction l with
  | nil =>
      intro st _ hk hqk
      exact ⟨st, rfl, hk, hqk⟩
  | cons p rest ih =>
      intro st hl hk hqk
      obtain ⟨pv, pt⟩ := p
      have hpe := hl _ (List.mem_cons_self _ _)
      have hkey : (dlookup st.dist pv).isSome := (hk pv).mpr (hclosed cur pv pt hpe)
      obtain ⟨dn, hdn⟩ := Option.isSome_iff_exists.mp hkey
      by_cases hf : ((cd + pt : Int) : WithTop Int) < dn
      · have hr : relax cd cur st (pv, pt) =
            some ⟨dset st.dist pv ((cd + pt : Int) : WithTop Int),
                  dset st.preds pv cur, (cd + pt, pv) :: st.queue⟩ := by
          rw [relax, hdn]
          dsimp only
          rw [if_pos hf]
        have hk2 : ∀ v, (dlookup (dset st.dist pv ((cd + pt : Int) : WithTop Int))
            v).isSome ↔ (dlookup g v).isSome := by
          intro v
          rw [isSome_dlookup_dset]
          constructor
          · rintro (hv | hv)
            · rw [hv]
              exact hclosed cur pv pt hpe
            · exact (hk v).mp hv
          · intro hv
            exact .inr ((hk v).mpr hv)
        have hqk2 : ∀ e ∈ (cd + pt, pv) :: st.queue,
            (dlookup (dset st.dist pv ((cd + pt : Int) : WithTop Int))
              (Prod.snd e)).isSome := by
          intro e he
          rw [isSome_dlookup_dset]
          rcases List.mem_cons.mp he with h1 | h1
          · rw [h1]
            exact .inl rfl
          · exact .inr (hqk e h1)
        obtain ⟨st2, hrl, hk3, hqk3⟩ :=
          ih ⟨dset st.dist pv ((cd + pt : Int) : WithTop Int),
              dset st.preds pv cur, (cd + pt, pv) :: st.queue⟩
            (fun q hq => hl q (List.mem_cons_of_mem _ hq)) hk2 hqk2
        refine ⟨st2, ?_, hk3, hqk3⟩
        rw [relaxList, hr]
        exact hrl
      · have hr : relax cd cur st (pv, pt) = some st := by
          rw [relax, hdn]
          dsimp only
          rw [if_neg hf]
        obtain ⟨st2, hrl, hk3, hqk3⟩ :=
          ih st (fun q hq => hl q (List.mem_cons_of_mem _ hq)) hk hqk
        refine ⟨st2, ?_, hk3, hqk3⟩
        rw [relaxList, hr]
        exact hrl

theorem dijkstraStep_no_keyErr {g : Graph} (hclosed : Closed g)
    (hnodup : InnerNodup g) {st : DState}
    (hk : ∀ v, (dlookup st.dist v).isSome ↔ (dlookup g v).isSome)
    (hqk : ∀ e ∈ st.queue, (dlookup st.dist (Prod.snd e)).isSome) :
    dijkstraStep g st = .done ∨ ∃ st2, dijkstraStep g st = .next st2 ∧
      (∀ v, (dlookup st2.dist v).isSome ↔ (dlookup g v).isSome) ∧
      (∀ e ∈ st2.queue, (dlookup st2.dist (Prod.snd e)).isSome) := by
  rw [dijkstraStep]
  cases hq : popMin st.queue with
  | none => exact .inl rfl
  | some pr =>
      obtain ⟨⟨cd, cur⟩, rest⟩ := pr
      obtain ⟨hmem, hrest⟩ := popMin_spec hq
      have hck : (dlookup st.dist cur).isSome := hqk (cd, cur) hmem
      obtain ⟨dcur, hdcur⟩ := Option.isSome_iff_exists.mp hck
      dsimp only
      rw [hdcur]
      dsimp only
      have hqrest : ∀ e ∈ rest, (dlookup st.dist (Prod.snd e)).isSome := by
        intro e he
        rw [hrest] at he
        exact hqk e (mem_removeFirst he)
      by_cases hstale : dcur < ((cd : Int) : WithTop Int)
      · rw [if_pos hstale]
        exact .inr ⟨⟨st.dist, st.preds, rest⟩, rfl, hk, hqrest⟩
      · rw [if_neg hstale]
        obtain ⟨st2, hrl, hk3, hqk3⟩ :=
          relaxList_kinv hclosed ((dlookup g cur).getD [])
            ⟨st.dist, st.preds, rest⟩ (adjacency_edges hnodup cur) hk hqrest
        rw [hrl]
        exact .inr ⟨st2, rfl, hk3, hqk3⟩

theorem dijkstraRun_no_keyErr {g : Graph} (hclosed : Closed g)
    (hnodup : InnerNodup g) :
    ∀ (n : Nat) (st : DState),
      (∀ v, (dlookup st.dist v).isSome ↔ (dlookup g v).isSome) →
      (∀ e ∈ st.queue, (dlookup st.dist (Prod.snd e)).isSome) →
      dijkstraRun g n st ≠ .keyErr := by
  intro n
  induction n with
  | zero =>
      intro st _ _ h
      rw [dijkstraRun] at h
      exact RunRes.noConfusion h
  | succ n ih =>
      intro st hk hqk h
      rw [dijkstraRun] at h
      rcases dijkstraStep_no_keyErr hclosed hnodup hk hqk with hdone |
        ⟨st2, hnext, hk2, hqk2⟩
      · rw [hdone] at h
        exact RunRes.noConfusion h
      · rw [hnext] at h
        exact ih st2 hk2 hqk2 h

/-! ### Claims about the shortest-path engine -/

/-- The three-edge example graph of the spec's concrete scenario, as
loaded from rows (header first): A-B:5, B-C:3, A-C:10. -/
def exRows : List (List String) :=
  [["Line", "From", "To", "Time"], ["l", "A", "B", "5"], ["l", "B", "C", "3"],
   ["l", "A", "C", "10"]]

/-- C1: for every graph produced by `load_underground_graph`'s row loop
with all edge weights strictly positive, and every source station that
is a key of the graph, Dijkstra's run (with enough fuel for its
unbounded while loop, existentially quantified) terminates without
raising and returns a distance table in which every station's entry is
the minimum total edge weight over all paths from the source, `inf` if
no path exists. -/
theorem dijkstra_shortest_path_correct (g : Graph) (s : String)
    (hload : ∃ rows, g = buildGraph rows) (hpos : PosW g)
    (hs : (dlookup g s).isSome) :
    ∃ fuel dist preds, dijkstra_shortest_path g s fuel = .ok dist preds ∧
      ∀ v, (dlookup g v).isSome →
        ∃ d, dlookup dist v = some d ∧ MinWalkDist g s v d := by
  obtain ⟨rows, rfl⟩ := hload
  obtain ⟨n, st, hrun, hinv, hq⟩ :=
    dijkstra_terminates hpos (buildGraph_closed rows) (buildGraph_innerNodup rows) hs
  refine ⟨n, st.dist, st.preds, ?_, ?_⟩
  · rw [dijkstra_shortest_path, if_pos hs, hrun]
  · exact terminal_minWalkDist hinv hq

/-- C1 witness: the hypotheses hold for the loaded three-edge example
graph with source A, so the conclusion holds there. -/
theorem dijkstra_shortest_path_correct_witness :
    PosW (buildGraph exRows) ∧ (dlookup (buildGraph exRows) "A").isSome ∧
      ∃ fuel dist preds,
        dijkstra_shortest_path (buildGraph exRows) "A" fuel = .ok dist preds ∧
        ∀ v, (dlookup (buildGraph exRows) v).isSome →
          ∃ d, dlookup dist v = some d ∧ MinWalkDist (buildGraph exRows) "A" v d :=
  ⟨by decide, by decide,
    dijkstra_shortest_path_correct (buildGraph exRows) "A" ⟨exRows, rfl⟩
      (by decide) (by decide)⟩

/-- C2: on the graph with exactly the undirected edges A-B:5, B-C:3 and
A-C:10, `find_shortest_path(graph, A, C)` returns the path [A, B, C]
with total cost 8, not the direct edge A-C. -/
theorem concrete_scenario_A_to_C :
    find_shortest_path (buildGraph exRows) "A" "C" 10 = .res ["A", "B", "C"] 8 := by
  decide

/-- C5: for every loader-built graph with positive weights, every source
and every reachable destination (both keys of the graph), the cost
returned by `find_shortest_path` equals the sum of the edge weights
along the path it returns, and both equal the distance-table entry for
the destination that `dijkstra_shortest_path` computed. -/
theorem reconstruction_agreement (g : Graph) (s e : String)
    (hload : ∃ rows, g = buildGraph rows) (hpos : PosW g)
    (hs : (dlookup g s).isSome) (he : (dlookup g e).isSome)
    (hreach : ∃ c, Walk g s e c) :
    ∃ fuel p c, find_shortest_path g s e fuel = .res p c ∧
      costAlong g p = some c ∧
      ∃ dist preds, dijkstra_shortest_path g s fuel = .ok dist preds ∧
        dlookup dist e = some ((c : Int) : WithTop Int) := by
  obtain ⟨rows, rfl⟩ := hload
  obtain ⟨n, st, hrun, hinv, hq⟩ :=
    dijkstra_terminates hpos (buildGraph_closed rows) (buildGraph_innerNodup rows) hs
  obtain ⟨d, hd, hmwd⟩ := terminal_minWalkDist hinv hq e he
  obtain ⟨c0, hw0⟩ := hreach
  cases hdc : d with
  | top =>
      rw [hdc] at hmwd
      exact absurd hw0 (hmwd.2 rfl c0)
  | coe c =>
      rw [hdc] at hd
      obtain ⟨p, hh, hl, hcost, hwb⟩ :=
        reconstruct_terminal hpos hinv hq c.toNat e c hd (le_refl _)
      have hrun2 : dijkstraRun (buildGraph rows) (n + c.toNat + 1)
          (dijkstraInit (buildGraph rows) s) = .out st :=
        dijkstraRun_mono hrun _ (by omega)
      refine ⟨n + c.toNat + 1, p, c, ?_, hcost, st.dist, st.preds, ?_, hd⟩
      · rw [find_shortest_path, if_pos ⟨hs, he⟩]
        rw [dijkstra_shortest_path, if_pos hs, hrun2]
        dsimp only
        rw [hd]
        simp only [Option.getD_some]
        rw [if_neg (WithTop.coe_ne_top)]
        have hwb2 := hwb [] (n + c.toNat + 1) (by omega)
        rw [hwb2]
        dsimp only
        rw [List.append_nil, WithTop.untop'_coe]
      · rw [dijkstra_shortest_path, if_pos hs, hrun2]

/-- C5 witness: for the example graph, source A and destination C. -/
theorem reconstruction_agreement_witness :
    ∃ fuel p c, find_shortest_path (buildGraph exRows) "A" "C" fuel = .res p c ∧
      costAlong (buildGraph exRows) p = some c ∧
      ∃ dist preds,
        dijkstra_shortest_path (buildGraph exRows) "A" fuel = .ok dist preds ∧
        dlookup dist "C" = some ((c : Int) : WithTop Int) := by
  refine reconstruction_agreement (buildGraph exRows) "A" "C" ⟨exRows, rfl⟩
    (by decide) (by decide) (by decide) ⟨0 + 5 + 3, ?_⟩
  have h1 : Walk (buildGraph exRows) "A" "B" (0 + 5) :=
    Walk.cons Walk.nil (by decide)
  exact Walk.cons h1 (by decide)

/-- C6: for every loader-built graph with positive weights and every
station X that is a key of the graph, `find_shortest_path(graph, X, X)`
returns the single-element path [X] with total cost 0. -/
theorem zero_cost_identity (g : Graph) (x : String)
    (hload : ∃ rows, g = buildGraph rows) (hpos : PosW g)
    (hx : (dlookup g x).isSome) :
    ∃ fuel, find_shortest_path g x x fuel = .res [x] 0 := by
  obtain ⟨rows, rfl⟩ := hload
  obtain ⟨n, st, hrun, hinv, hq⟩ :=
    dijkstra_terminates hpos (buildGraph_closed rows) (buildGraph_innerNodup rows) hx
  refine ⟨n, ?_⟩
  rw [find_shortest_path, if_pos ⟨hx, hx⟩]
  rw [dijkstra_shortest_path, if_pos hx, hrun]
  dsimp only
  rw [hinv.src]
  simp only [Option.getD_some]
  rw [if_neg (WithTop.coe_ne_top)]
  have hwb : walkBack st.preds x n x [] = some (some [x]) := by
    cases n with
    | zero => rw [walkBack, if_pos rfl]
    | succ f => rw [walkBack, if_pos rfl]
  rw [hwb]
  dsimp only
  rw [WithTop.untop'_coe]

/-- C6 witness: station A of the example graph. -/
theorem zero_cost_identity_witness :
    ∃ fuel, find_shortest_path (buildGraph exRows) "A" "A" fuel = .res ["A"] 0 :=
  zero_cost_identity (buildGraph exRows) "A" ⟨exRows, rfl⟩ (by decide) (by decide)

/-- C7: for every loader-built graph with positive weights (the spec's
data-model invariants) and any two station names, if either name is not
a key of the graph or the destination is unreachable from the start,
`find_shortest_path` returns the empty path with cost 0 — a normal
return value, with no exception propagating to the caller. -/
theorem unreachable_or_absent_no_path (g : Graph) (s e : String)
    (hload : ∃ rows, g = buildGraph rows) (hpos : PosW g)
    (h : ¬(dlookup g s).isSome ∨ ¬(dlookup g e).isSome ∨ ¬∃ c, Walk g s e c) :
    ∃ fuel, find_shortest_path g s e fuel = .res [] 0 := by
  by_cases hs : (dlookup g s).isSome
  · by_cases hee : (dlookup g e).isSome
    · have hnr : ¬∃ c, Walk g s e c := by
        rcases h with h1 | h1 | h1
        · exact absurd hs h1
        · exact absurd hee h1
        · exact h1
      obtain ⟨rows, rfl⟩ := hload
      obtain ⟨n, st, hrun, hinv, hq⟩ :=
        dijkstra_terminates hpos (buildGraph_closed rows)
          (buildGraph_innerNodup rows) hs
      obtain ⟨d, hd, hmwd⟩ := terminal_minWalkDist hinv hq e hee
      have hdt : d = ⊤ := by
        cases hdc : d with
        | top => rfl
        | coe c =>
            rw [hdc] at hmwd
            exact absurd ⟨c, (hmwd.1 c rfl).1⟩ hnr
      refine ⟨n, ?_⟩
      rw [find_shortest_path, if_pos ⟨hs, hee⟩]
      rw [dijkstra_shortest_path, if_pos hs, hrun]
      dsimp only
      rw [hd, hdt]
      simp
    · have hcond : ¬((dlookup g s).isSome ∧ (dlookup g e).isSome) :=
        fun hc => hee hc.2
      refine ⟨1, ?_⟩
      rw [find_shortest_path, if_neg hcond]
  · have hcond : ¬((dlookup g s).isSome ∧ (dlookup g e).isSome) :=
      fun hc => hs hc.1
    refine ⟨1, ?_⟩
    rw [find_shortest_path, if_neg hcond]

/-- C7 witness: querying the absent station Z on the example graph. -/
theorem unreachable_or_absent_no_path_witness :
    ∃ fuel, find_shortest_path (buildGraph exRows) "A" "Z" fuel = .res [] 0 :=
  unreachable_or_absent_no_path (buildGraph exRows) "A" "Z" ⟨exRows, rfl⟩
    (by decide) (.inr (.inl (by decide)))

/-- C10: every graph built by the loader's row loop is closed under
adjacency (every station appearing as a neighbor is itself a top-level
key), and consequently, on such a graph, `dijkstra_shortest_path` from
any graph key can never reach its key-not-found branch — for any fuel,
the result is never `keyError`. -/
theorem loader_graph_closed_no_keyError (rows : List (List String)) :
    Closed (buildGraph rows) ∧
      ∀ (s : String) (fuel : Nat), (dlookup (buildGraph rows) s).isSome →
        dijkstra_shortest_path (buildGraph rows) s fuel ≠ .keyError := by
  refine ⟨buildGraph_closed rows, ?_⟩
  intro s fuel hs hk
  rw [dijkstra_shortest_path, if_pos hs] at hk
  cases hr : dijkstraRun (buildGraph rows) fuel (dijkstraInit (buildGraph rows) s) with
  | out st =>
      rw [hr] at hk
      exact DijkRes.noConfusion hk
  | fuelOut =>
      rw [hr] at hk
      exact DijkRes.noConfusion hk
  | keyErr =>
      refine dijkstraRun_no_keyErr (buildGraph_closed rows)
        (buildGraph_innerNodup rows) fuel (dijkstraInit (buildGraph rows) s)
        (dijkstraInit_inv hs).keys ?_ hr
      intro e he
      obtain ⟨dv, hdv, _⟩ := (dijkstraInit_inv hs).qdom e he
      rw [hdv]
      rfl

/-- C10 witness: on the loaded example graph, a run from A with a
concrete fuel is not a key error. -/
theorem loader_graph_closed_no_keyError_witness :
    dijkstra_shortest_path (buildGraph exRows) "A" 3 ≠ .keyError :=
  (loader_graph_closed_no_keyError exRows).2 "A" 3 (by decide)

end Task3
